import Mathlib

/-!
Verification development for the Allin poker repository.

Shallow embedding of:
* `rules.py` (hand-ranking evaluator `HandRanking.calculate_ranking`),
* `rules/game_flow.py` (betting state machine: `PlayerHand.bet`, `Deal.action`,
  `Deal.next_round`, `Deal.showdown`, `Deal.get_next_turn`, `Deal.start_deal`),
* `online/server/rooms.py` (`ServerGameRoom.join`),
* `online/server/server_main.py` (`ClientHandler.join_room`),
* `online/client/client_comms.py` (the response-wait loop of `ClientComms.send_request`).

Python integers are modelled as `Int` (money, bets) or `Nat` (indices, counts);
Python floor division `//` is `Int.fdiv`.  Functions that can raise exceptions
or recurse unboundedly return `Option`, with `none` standing for the raised
exception (or, for fuel-based recursion, for divergence).
-/

namespace Allin

/-! ## Cards (`rules.py`)

A card has a rank 2-14 and a suit; the four Python suit characters
"S","H","D","C" are modelled as the numbers 0-3. -/

structure Card where
  rank : Nat
  suit : Nat
deriving DecidableEq

/- Ranking-type constants of `HandRanking` (`rules.py`); smaller = better. -/
namespace HandRanking

def ROYAL_FLUSH : Nat := 1
def STRAIGHT_FLUSH : Nat := 2
def QUAD : Nat := 3
def FULL_HOUSE : Nat := 4
def FLUSH : Nat := 5
def STRAIGHT : Nat := 6
def TRIPLE : Nat := 7
def TWO_PAIR : Nat := 8
def PAIR : Nat := 9
def HIGH_CARD : Nat := 10

end HandRanking

/-- Number of cards of the given rank: the value `rank_count[r]` built by the
counting loop of `calculate_ranking`. -/
def countRank (cards : List Card) (r : Nat) : Nat :=
  (cards.filter (fun c => c.rank == r)).length

/-- Number of cards of the given suit: the value `suit_count[s]`. -/
def countSuit (cards : List Card) (s : Nat) : Nat :=
  (cards.filter (fun c => c.suit == s)).length

/-- The distinct ranks appearing in the hand (`rank_count.keys()`; key order is
irrelevant to the uses below, which sort or take multisets). -/
def distinctRanks (cards : List Card) : List Nat :=
  (cards.map Card.rank).dedup

/-- Insert into an ascending list (helper for modelling Python `sorted`). -/
def insertAsc (x : Nat) : List Nat → List Nat
  | [] => [x]
  | y :: ys => if x ≤ y then x :: y :: ys else y :: insertAsc x ys

/-- Ascending insertion sort, modelling Python `sorted(...)` on rank lists. -/
def sortAsc (l : List Nat) : List Nat := l.foldr insertAsc []

/-- Insert into a descending list. -/
def insertDesc (x : Nat) : List Nat → List Nat
  | [] => [x]
  | y :: ys => if y ≤ x then x :: y :: ys else y :: insertDesc x ys

/-- Descending insertion sort, modelling `sorted(..., reverse=True)` on the
per-rank counts (only the counts are used, so tie order is irrelevant). -/
def sortDesc (l : List Nat) : List Nat := l.foldr insertDesc []

/-- The multiset of per-rank counts (the values of `rank_count`). -/
def countsList (cards : List Card) : List Nat :=
  (distinctRanks cards).map (countRank cards)

/-- The "Ranking by the rank count of the cards" block of `calculate_ranking`:
`highest_count = sorted_rank_count[0][1]`, `highest_count_2 = sorted_rank_count[1][1]`,
then the `match highest_count` statement.  The initial `ranking_type = 0` is
kept when no case matches. -/
def countRankingType (cards : List Card) : Nat :=
  let counts := sortDesc (countsList cards)
  let highest_count := counts.getD 0 0
  let highest_count_2 := counts.getD 1 0
  match highest_count with
  | 4 => HandRanking.QUAD
  | 3 => if 2 ≤ highest_count_2 then HandRanking.FULL_HOUSE else HandRanking.TRIPLE
  | 2 => if 2 ≤ highest_count_2 then HandRanking.TWO_PAIR else HandRanking.PAIR
  | 1 => HandRanking.HIGH_CARD
  | _ => 0

/-- `straight_suits[r]`: the suits of the cards of rank `r`, in card order. -/
def suitsOfRank (cards : List Card) (r : Nat) : List Nat :=
  (cards.filter (fun c => c.rank == r)).map Card.suit

/-- The straight/straight-flush/royal-flush classification executed when
`len(consecutives) >= 5`: build `straight_suits`, pick `matcher_suit` with
`next(...)` (`none` models the `StopIteration` exception when no rank has a
single suit), then either `min(ranking, STRAIGHT)` or a direct assignment of
`ROYAL_FLUSH`/`STRAIGHT_FLUSH`. -/
def straightCheck (cards : List Card) (consecutives : List Nat) (y : Nat)
    (ranking : Nat) : Option Nat :=
  let suitsLists := consecutives.map (suitsOfRank cards)
  match suitsLists.find? (fun s => s.length == 1) with
  | none => none
  | some ms =>
    let matcher_suit := ms.headD 0
    if suitsLists.any (fun s => !(s.contains matcher_suit)) then
      some (min ranking HandRanking.STRAIGHT)
    else
      some (if y == 14 then HandRanking.ROYAL_FLUSH else HandRanking.STRAIGHT_FLUSH)

/-- The `for x, y in zip(sorted_ranks[:-1], sorted_ranks[1:])` scan: extend or
reset `consecutives`, and run `straightCheck` whenever it has ≥ 5 entries. -/
def straightScan (cards : List Card) :
    List Nat → Nat → List Nat → Nat → Option Nat
  | [], _, _, ranking => some ranking
  | y :: rest, x, consecutives, ranking =>
    let consecutives' := if x + 1 == y then consecutives ++ [y] else [y]
    let step :=
      if 5 ≤ consecutives'.length then straightCheck cards consecutives' y ranking
      else some ranking
    match step with
    | none => none
    | some ranking' => straightScan cards rest y consecutives' ranking'

/-- Whether some suit has ≥ 5 cards (`any(x >= 5 for x in suit_count.values())`). -/
def hasFlush (cards : List Card) : Bool :=
  cards.any (fun c => 5 ≤ countSuit cards c.suit)

/-- `HandRanking.calculate_ranking` (`rules.py` lines 124-221), returning the
final `ranking_type`.  `none` models a raised exception: the `IndexError` on
`sorted_rank_count[1]` when there are fewer than two distinct ranks, or the
`StopIteration` inside the straight check.  Note the ace handling: when rank 14
is present, `1` is appended AFTER the ascending sort (`sorted_ranks.append(1)`),
so `1` sits after `14` at the end of the list being scanned. -/
def calculate_ranking (cards : List Card) : Option Nat :=
  if (distinctRanks cards).length < 2 then none
  else
    let r0 := countRankingType cards
    let ranksAsc := sortAsc (distinctRanks cards)
    let sorted_ranks :=
      if (cards.map Card.rank).contains 14 then ranksAsc ++ [1] else ranksAsc
    let afterStraight :=
      if 5 ≤ sorted_ranks.length then
        match sorted_ranks with
        | [] => some r0
        | x :: rest => straightScan cards rest x [x] r0
      else some r0
    afterStraight.map (fun r => if hasFlush cards then min r HandRanking.FLUSH else r)

/-- Spec-side straight detection (comparator, following the spec's words):
5 consecutive distinct ranks are present, with the Ace counting as both low
(1) and high (14).  The low card of a straight ranges over 1..10. -/
def specHasStraight (cards : List Card) : Bool :=
  let ranks := (cards.map Card.rank).dedup
  (List.range 10).any (fun lo0 =>
    let lo := lo0 + 1
    [lo, lo + 1, lo + 2, lo + 3, lo + 4].all (fun r =>
      ranks.contains r || (r == 1 && ranks.contains 14)))

/-- Spec-side straight detection with the Ace HIGH only (comparator): 5
consecutive distinct ranks are present with the low card ranging over 2..10,
so the run 10-J-Q-K-A is included but the ace-low run A-2-3-4-5 is not. -/
def specHasStraightAceHigh (cards : List Card) : Bool :=
  let ranks := (cards.map Card.rank).dedup
  (List.range 9).any (fun lo0 =>
    ranks.contains (lo0 + 2) && ranks.contains (lo0 + 3) &&
    ranks.contains (lo0 + 4) && ranks.contains (lo0 + 5) &&
    ranks.contains (lo0 + 6))

/-- Run-length abstraction of the consecutive-rank scan: scanning the list
with previous element `x` and a current consecutive run of length `c`, does
the run ever reach length 5?  This mirrors exactly the `consecutives` length
dynamics of `straightScan` (proved sound and complete for it below): extend on
`x + 1 = y`, reset to length 1 otherwise, and succeed when the extended run
has 5 entries - the condition under which `straightScan` runs
`straightCheck`. -/
def runReach (c x : Nat) : List Nat → Bool
  | [] => false
  | y :: rest =>
    if x + 1 = y then
      if 5 ≤ c + 1 then true else runReach (c + 1) y rest
    else runReach 1 y rest

/-! ## Betting state machine (`rules/game_flow.py`)

`PlayerHand` keeps the fields of the Python class that the game flow reads:
`player_data.money`, `bet_amount`, `folded`, `called`, `all_in`.  The
`hand_ranking.overall_score` value (computed by `rules/basic.py`, which is not
part of this snapshot) is carried as the opaque field `score`; `next_round`
overwrites it with externally supplied data standing for
`HandRanking(community_cards + pocket_cards).overall_score`.  The purely
cosmetic fields (`pocket_cards`, `last_action`) and the event broadcasting are
omitted. -/

/- Return codes of `ActionResult` (`rules/game_flow.py`). -/
namespace ActionResult

def SUCCESS : Nat := 0
def LESS_THAN_MIN_BET : Nat := 1
def LESS_THAN_MIN_RAISE : Nat := 2
def ROUND_ALREADY_ENDED : Nat := 3
def DEAL_ALREADY_ENDED : Nat := 4

end ActionResult

/-- Per-hand player state (`PlayerHand` plus its `player_data.money`). -/
structure PlayerHand where
  money : Int
  bet_amount : Int
  folded : Bool
  called : Bool
  all_in : Bool
  score : Int
deriving DecidableEq

instance : Inhabited PlayerHand :=
  ⟨{ money := 0, bet_amount := 0, folded := false, called := false,
     all_in := false, score := 0 }⟩

/-- The fields of `PokerGame` read by `Deal`: `sb_amount`, `min_bet`
(`= 2 * sb_amount` in `PokerGame.__init__`) and `dealer`. -/
structure GameCfg where
  sb_amount : Int
  min_bet : Int
  dealer : Nat
deriving DecidableEq

/-- `PlayerHand.bet` (`rules/game_flow.py` lines 125-152).  Pays
`new_bet - bet_amount` into the pot, capping at the player's full stack and
setting `all_in` when `amount_to_pay >= money`; outside blind posting it sets
`called`.  Returns the updated player and pot. -/
def PlayerHand.bet (p : PlayerHand) (pot : Int) (new_bet : Int) (blinds : Bool) :
    PlayerHand × Int :=
  let amount_to_pay := new_bet - p.bet_amount
  let goingAllIn : Bool := p.money ≤ amount_to_pay
  let pay := if goingAllIn then p.money else amount_to_pay
  let new_bet' := if goingAllIn then p.money + p.bet_amount else new_bet
  ({ p with
      money := p.money - pay
      bet_amount := new_bet'
      all_in := goingAllIn || p.all_in
      called := if blinds then p.called else true },
    pot + pay)

/-- State of one deal (`Deal`).  `winners` holds player indices (the Python
list holds the `PlayerHand` objects themselves); `ncommunity` is
`len(community_cards)`; the deck and the cards are abstracted away (the deck is
shuffled randomly, so card-dependent data enters through `next_round`'s score
argument). -/
structure Deal where
  players : List PlayerHand
  winners : List Nat
  pot : Int
  bet_amount : Int
  current_turn : Nat
  blinds : Nat × Nat
  round_finished : Bool
  ncommunity : Nat
deriving DecidableEq

/-- Fresh deal state as produced by `Deal.__init__` (pot 0, no winners,
`round_finished = False`, no community cards; the `current_turn = -1` sentinel
is written before `start_deal` assigns a real turn, and is modelled as 0). -/
def Deal.mk0 (ps : List PlayerHand) : Deal :=
  { players := ps, winners := [], pot := 0, bet_amount := 0, current_turn := 0,
    blinds := (0, 0), round_finished := false, ncommunity := 0 }

/-- `sum(not player.folded for player in self.players)`. -/
def countNotFolded (ps : List PlayerHand) : Nat :=
  (ps.filter (fun p => !p.folded)).length

/-- `all(player.all_in for player in self.players if not player.folded)`. -/
def allNotFoldedAllIn (ps : List PlayerHand) : Bool :=
  ps.all (fun p => p.folded || p.all_in)

/-- `all(player.called or player.all_in for player in self.players if not player.folded)`
(`Deal.action` line 304). -/
def allCalledOrAllIn (ps : List PlayerHand) : Bool :=
  ps.all (fun p => p.folded || (p.called || p.all_in))

/-- `Deal._Deal__get_next_turn` (lines 412-423): skip folded/all-in players,
cycling modulo the player count; the `fuel` argument bounds the recursion
depth, with `none` standing for infinite recursion. -/
def getNextTurnAux (ps : List PlayerHand) : Nat → Nat → Nat → Option Nat
  | 0, _, _ => none
  | fuel + 1, n, turn =>
    let p := ps.getD turn default
    if p.folded || p.all_in then
      getNextTurnAux ps fuel n ((turn + 1) % ps.length)
    else if n = 0 then
      some turn
    else
      getNextTurnAux ps fuel (n - 1) ((turn + 1) % ps.length)

/-- `Deal.get_next_turn` (lines 389-410).  `turn? = none` models the `-1`
default that selects `self.current_turn`.  The recursion of the private helper
is given `n * len + len` fuel, which `getNextTurnAux_sound` below proves
sufficient whenever the guard fails. -/
def Deal.get_next_turn (d : Deal) (n : Nat) (turn? : Option Nat) : Option Nat :=
  let turn := turn?.getD d.current_turn
  if countNotFolded d.players ≤ 1 ∨ allNotFoldedAllIn d.players then some turn
  else
    getNextTurnAux d.players (n * d.players.length + d.players.length) (n - 1)
      ((turn + 1) % d.players.length)

/-- A player who may still act: neither folded nor all-in. -/
def canAct (p : PlayerHand) : Bool := !p.folded && !p.all_in

/-- Indices of the non-folded players (`not_folded` in `Deal.showdown`). -/
def notFoldedIdx (d : Deal) : List Nat :=
  (List.range d.players.length).filter (fun j => !(d.players.getD j default).folded)

/-- `max` of a list of scores, as Python `max(...)` (0 on the empty list,
where Python raises instead). -/
def listMaxInt : List Int → Int
  | [] => 0
  | a :: r => r.foldl max a

/-- `max(player.hand_ranking.overall_score for player in not_folded)`. -/
def maxScoreOf (d : Deal) : Int :=
  listMaxInt ((notFoldedIdx d).map (fun j => (d.players.getD j default).score))

/-- The winners list computed by `Deal.showdown`: non-folded players whose
score equals the maximum. -/
def showdownWinners (d : Deal) : List Nat :=
  (notFoldedIdx d).filter (fun j => (d.players.getD j default).score == maxScoreOf d)

/-- The payout loop `for winner in self.winners: winner.player_data.money += share`,
walking the player list with its position `j`. -/
def payWinnersFrom (w : List Nat) (share : Int) : Nat → List PlayerHand → List PlayerHand
  | _, [] => []
  | j, p :: ps =>
    (if w.contains j then { p with money := p.money + share } else p) ::
      payWinnersFrom w share (j + 1) ps

/-- `Deal.showdown` (lines 367-380): among the non-folded players, the ones
with the maximal `hand_ranking.overall_score` are the winners, and each winner
receives `pot // len(winners)` (floor division); the pot itself is not reset.
The first branch models the `max()` exception on an impossible empty
sequence. -/
def Deal.showdown (d : Deal) : Deal :=
  if notFoldedIdx d = [] then d
  else
    let winners := showdownWinners d
    let share := d.pot.fdiv (winners.length : Int)
    { d with
        winners := winners
        players := payWinnersFrom winners share 0 d.players }

/-- The tail of `Deal.action` (lines 298-310): if every non-folded player has
called or is all-in the round finishes, otherwise the turn advances. -/
def Deal.afterAction (d : Deal) : Deal :=
  if allCalledOrAllIn d.players then
    { d with round_finished := true }
  else
    { d with current_turn := (d.get_next_turn 1 none).getD d.current_turn }

/-- The Fold arm of `Deal.action`: mark the current player folded, and when
only one non-folded player remains, run the short-circuit showdown. -/
def Deal.doFold (d : Deal) : Deal :=
  let player := d.players.getD d.current_turn default
  let d1 := { d with
      players := d.players.set d.current_turn { player with folded := true } }
  if countNotFolded d1.players = 1 then d1.showdown else d1

/-- The Check/Call arm of `Deal.action`: `player.bet(self.bet_amount)` followed
by `player.called = True`. -/
def Deal.doCall (d : Deal) : Deal :=
  let player := d.players.getD d.current_turn default
  let pp := player.bet d.pot d.bet_amount false
  { d with
      players := d.players.set d.current_turn { pp.1 with called := true }
      pot := pp.2 }

/-- `x.called = False` applied to every player before a bet/raise. -/
def resetCalled (p : PlayerHand) : PlayerHand := { p with called := false }

/-- The successful Bet/Raise arm of `Deal.action`: cap the amount at the
player's stack plus commitment, clear every `called` flag, set the table
bet and pay. -/
def Deal.doRaise (d : Deal) (new_amount : Int) (blinds : Bool) : Deal :=
  let player := d.players.getD d.current_turn default
  let amt :=
    if player.money + player.bet_amount < new_amount then
      player.money + player.bet_amount
    else new_amount
  let reset := d.players.map resetCalled
  let pp := (reset.getD d.current_turn default).bet d.pot amt blinds
  { d with
      players := reset.set d.current_turn pp.1
      pot := pp.2
      bet_amount := amt }

/-- `Deal.action` (lines 207-317).  Returns `none` for the raised
`TypeError`/`ValueError` on an action type outside 0-2, and otherwise the
updated deal with the `ActionResult` code. -/
def Deal.action (cfg : GameCfg) (d : Deal) (action_type : Nat) (new_amount : Int)
    (blinds : Bool) : Option (Deal × Nat) :=
  if 3 ≤ action_type then none
  else if d.round_finished then some (d, ActionResult.ROUND_ALREADY_ENDED)
  else if d.winners ≠ [] then some (d, ActionResult.DEAL_ALREADY_ENDED)
  else if action_type = 0 then
    some (d.doFold.afterAction, ActionResult.SUCCESS)
  else if action_type = 1 then
    some (d.doCall.afterAction, ActionResult.SUCCESS)
  else if ¬blinds ∧ new_amount < 2 * cfg.min_bet then
    some (d, ActionResult.LESS_THAN_MIN_BET)
  else if new_amount ≤ d.bet_amount then
    some (d, ActionResult.LESS_THAN_MIN_RAISE)
  else
    some ((d.doRaise new_amount blinds).afterAction, ActionResult.SUCCESS)

/-- The per-player reset loop of `Deal.next_round`: recompute the hand ranking
(`newScores.getD j` standing for the freshly constructed
`HandRanking(...).overall_score` of player `j`) and clear the per-round
commitment and `called` flag. -/
def resetRound (newScores : List Int) : Nat → List PlayerHand → List PlayerHand
  | _, [] => []
  | j, p :: ps =>
    { p with score := newScores.getD j p.score, bet_amount := 0, called := false } ::
      resetRound newScores (j + 1) ps

/-- `Deal.next_round` (lines 319-365).  `newScores` stands for the freshly
computed `HandRanking(self.community_cards + player.pocket_cards).overall_score`
of each player (card data entering from the shuffled deck).  Reveals community
cards or runs the showdown, resets the per-round player fields, and skips the
betting round when at most one non-folded player is not all-in. -/
def Deal.next_round (cfg : GameCfg) (newScores : List Int) (d : Deal) : Deal :=
  if d.winners ≠ [] then d
  else
    let d1 : Deal := { d with
        bet_amount := 0
        current_turn := (d.get_next_turn 1 (some cfg.dealer)).getD d.current_turn
        round_finished := false }
    let d2 : Deal :=
      if d1.ncommunity < 5 then
        { d1 with ncommunity := d1.ncommunity + (if d1.ncommunity = 0 then 3 else 1) }
      else d1.showdown
    let d3 : Deal := { d2 with players := resetRound newScores 0 d2.players }
    if (d3.players.filter canAct).length ≤ 1 then
      { d3 with round_finished := true }
    else d3

/-- `Deal.start_deal` (lines 193-205): seat the blinds after the dealer and
post the small and big blind as forced bets. -/
def Deal.start_deal (cfg : GameCfg) (d : Deal) : Option Deal :=
  let t1 := (d.get_next_turn 1 (some cfg.dealer)).getD d.current_turn
  let d1 := { d with current_turn := t1 }
  let t2 := (d1.get_next_turn 1 none).getD d1.current_turn
  let d2 := { d1 with blinds := (t1, t2) }
  match d2.action cfg 2 cfg.sb_amount true with
  | none => none
  | some (d3, _) =>
    match d3.action cfg 2 (2 * cfg.sb_amount) true with
    | none => none
    | some (d4, _) => some d4

/-- Total uncommitted chips of the players. -/
def moneySum (ps : List PlayerHand) : Int :=
  (ps.map PlayerHand.money).sum

/-! ## Spec-side side-pot showdown (comparator for the refinement claim)

`Deal.showdown` in `rules/game_flow.py` is compared against the payout scheme
the spec describes.  The definitions below follow the spec's words, not the
source. -/

/-- Insert into an ascending `Int` list. -/
def insertAscInt (x : Int) : List Int → List Int
  | [] => [x]
  | y :: ys => if x ≤ y then x :: y :: ys else y :: insertAscInt x ys

/-- Ascending insertion sort on `Int` lists. -/
def sortAscInt (l : List Int) : List Int := l.foldr insertAscInt []

/-- Spec-side payout loop: for each contribution tier (ascending), the pot
slice between the previous tier and this one goes to the eligible players
(non-folded, total contribution reaching the tier) with the maximal score,
split evenly by floor division. -/
def specSidePotLoop (contribs : List Int) (folded : List Bool) (scores : List Int) :
    List Int → Int → List Int → List Int
  | [], _, payouts => payouts
  | lvl :: rest, prev, payouts =>
    let slice := (contribs.map (fun c => min c lvl - min c prev)).sum
    let eligible := (List.range contribs.length).filter
      (fun j => !(folded.getD j true) && lvl ≤ contribs.getD j 0)
    let best := (eligible.map (fun j => scores.getD j 0)).foldl max
      (((eligible.map (fun j => scores.getD j 0)).headD 0))
    let winners := eligible.filter (fun j => scores.getD j 0 == best)
    let payouts' := payouts.mapIdx (fun j v =>
      if winners.contains j then v + slice.fdiv (winners.length : Int) else v)
    specSidePotLoop contribs folded scores rest lvl payouts'

/-- The payout vector of the showdown described by the spec (§4.2): the pot is
partitioned into a main pot plus side pots by contribution tiers, each pot
going to its eligible players with the maximal ranking score. -/
def specSidePotPayouts (contribs : List Int) (folded : List Bool)
    (scores : List Int) : List Int :=
  specSidePotLoop contribs folded scores
    (sortAscInt ((contribs.filter (fun c => 0 < c)).dedup)) 0
    (List.replicate contribs.length 0)

/-- Payout vector actually produced by `Deal.showdown`: the money gained by
each player. -/
def payoutVec (d : Deal) : List Int :=
  List.zipWith (fun q p => q.money - p.money) d.showdown.players d.players

/-! ## Overall score (`rules/basic.py`, not in this snapshot)

Modelled from the spec: `rules/basic.py`, which defines the `HandRanking`
used by `rules/game_flow.py` (with its `overall_score` attribute), is absent
from this snapshot (`rules.py` holds an older evaluator without a score).
Spec §4.1 requires "a single totally-ordered comparable score", with the
ranking category dominant (smaller `ranking_type` = stronger hand) and the
ranked/kicker cards breaking ties; `Deal.showdown` takes the maximum, so
larger scores must win.  The model encodes the category and the five
tie-break card ranks (each < 15) positionally in base 15. -/

/-- A computed ranking: category constant (1-10, smaller = better) plus the
five tie-break card ranks (ranked cards then kickers, each 2-14). -/
structure ScoredRanking where
  ranking_type : Nat
  tiebreak : List Nat
deriving DecidableEq

/-- One base-15 digit step. -/
def scoreStep (a d : Nat) : Nat := a * 15 + d

/-- Base-15 value of the tie-break digit list. -/
def scoreDigits (l : List Nat) : Nat := l.foldl scoreStep 0

/-- Modelled from the spec: the totally-ordered `overall_score` (larger =
stronger) with the category dominant and tie-break ranks below. -/
def overall_score (h : ScoredRanking) : Nat :=
  (10 - h.ranking_type) * 15 ^ 5 + scoreDigits h.tiebreak

/-! ## Server room joining (`online/server/rooms.py`) -/

/-- The fields of a `HandlerPlayer` that `ServerGameRoom.join` touches; display
names are modelled as numbers. -/
structure RoomPlayer where
  name : Nat
  chips : Int
  leave_next_hand : Bool
  player_number : Nat
deriving DecidableEq

/-- The state of a `ServerGameRoom` that `join` reads and writes.
`game_in_progress`/`hand_winners` stand for the `PokerGame` attributes the
method consults (event sending is omitted). -/
structure Room where
  players : List RoomPlayer
  joining_queue : List RoomPlayer
  spectators : List RoomPlayer
  game_in_progress : Bool
  hand_winners : Bool
  starting_chips : Int
deriving DecidableEq

/-- Result of `ServerGameRoom.join`: either the updated room with the created
player, or the raised `ValueError("name already taken")`. -/
inductive JoinResult where
  | ok (room : Room) (p : RoomPlayer)
  | nameTaken
deriving DecidableEq

/-- `ServerGameRoom.join` (`online/server/rooms.py` lines 57-85): the name is
checked only against seated players not flagged `leave_next_hand`; the new
player is queued when a game is in progress and seated (with the next
`player_number`) otherwise. -/
def ServerGameRoom.join (room : Room) (clientName : Nat) : JoinResult :=
  if room.players.any (fun x => !x.leave_next_hand && x.name == clientName) then
    JoinResult.nameTaken
  else
    let newPlayer : RoomPlayer :=
      { name := clientName, chips := room.starting_chips,
        leave_next_hand := false, player_number := 0 }
    if room.game_in_progress then
      JoinResult.ok { room with joining_queue := room.joining_queue ++ [newPlayer] }
        newPlayer
    else
      let numbered := { newPlayer with player_number := room.players.length }
      JoinResult.ok { room with players := room.players ++ [numbered] } numbered

/-- The room state as seen after a `join` call: unchanged when the call raised. -/
def ServerGameRoom.joinState (room : Room) (clientName : Nat) : Room :=
  match ServerGameRoom.join room clientName with
  | JoinResult.ok r _ => r
  | JoinResult.nameTaken => room

/-! ## `ClientHandler.join_room` (`online/server/server_main.py` lines 125-141) -/

/-- Errors surfaced by `join_room` (the raised `ValueError`/`KeyError`s, which
`handle_basic_request` turns into ERROR responses). -/
inductive JoinRoomError where
  | invalidFormat
  | roomNotFound
  | alreadyInRoom
  | nameTaken
deriving DecidableEq

/-- Python `str.isupper()`: at least one cased character and every cased
character uppercase (cased = alphabetic for the ASCII strings at issue). -/
def pyIsUpper (s : List Char) : Bool :=
  s.any Char.isAlpha && s.all (fun c => !c.isAlpha || c.isUpper)

/-- `ClientHandler.join_room`, returning `some e` for a raised error and
`none` on success.  Note the guard is a CONJUNCTION, exactly as in the source:
`if len(room_code) != 4 and not room_code.isupper()`.  `roomNameTaken` stands
for `room.join` raising its name-taken error. -/
def ClientHandler.join_room (room_code : List Char) (roomCodes : List (List Char))
    (inRoom : Bool) (roomNameTaken : Bool) : Option JoinRoomError :=
  if room_code.length ≠ 4 ∧ !pyIsUpper room_code then
    some JoinRoomError.invalidFormat
  else if ¬roomCodes.contains room_code then
    some JoinRoomError.roomNotFound
  else if inRoom then
    some JoinRoomError.alreadyInRoom
  else if roomNameTaken then
    some JoinRoomError.nameTaken
  else
    none

/-- The handler's `current_room` membership flag after `join_room`: set on
success, untouched when an error was raised. -/
def ClientHandler.join_room_member (room_code : List Char)
    (roomCodes : List (List Char)) (inRoom : Bool) (roomNameTaken : Bool) : Bool :=
  match ClientHandler.join_room room_code roomCodes inRoom roomNameTaken with
  | none => true
  | some _ => inRoom

/-! ## Response-wait loop of `ClientComms.send_request`
(`online/client/client_comms.py` lines 161-171)

Durations are in hundredths of a second, so `check_delay = 0.01` is `1` and
the `>= 5` seconds bound is `500`. -/

/-- State of the wait loop: the accumulated `wait_time`, the polling interval
`check_delay`, the FIFO `request_queue`, and whether `TimeoutError` was
raised. -/
structure WaitState where
  wait_time : Nat
  check_delay : Nat
  request_queue : List Nat
  timed_out : Bool
deriving DecidableEq

/-- One iteration of `while not ClientComms.last_response`: add `check_delay`
to `wait_time`, then - exactly as in the source - test `check_delay >= 5`
(NOT `wait_time`) to pop the queue and raise `TimeoutError`. -/
def waitStep (s : WaitState) : WaitState :=
  let s1 := { s with wait_time := s.wait_time + s.check_delay }
  if 500 ≤ s1.check_delay then
    { s1 with request_queue := s1.request_queue.drop 1, timed_out := true }
  else s1

/-- `n` iterations of the wait loop with no response arriving. -/
def waitIter (s : WaitState) : Nat → WaitState
  | 0 => s
  | n + 1 => waitIter (waitStep s) n

/-- Loop state on entry (`wait_time = 0`, `check_delay = 0.01`). -/
def sendRequestWaitInit (queue : List Nat) : WaitState :=
  { wait_time := 0, check_delay := 1, request_queue := queue, timed_out := false }

/-! ## Concrete scenarios (counterexample and witness inputs)

Default game configuration of `PokerGame.__init__`: `sb_amount = 25`,
`min_bet = 2 * sb_amount = 50`, dealer at seat 0. -/

def scenCfg : GameCfg := { sb_amount := 25, min_bet := 50, dealer := 0 }

/-- A fresh player with the given stack (`Player.__init__` plus the
`PlayerHand.__init__` per-hand fields). -/
def mkPlayer (m : Int) : PlayerHand :=
  { money := m, bet_amount := 0, folded := false, called := false,
    all_in := false, score := 0 }

/-- Two players, 1000 and 3 chips, after `start_deal` posts the blinds: seat 1
is the small blind and goes all-in for its 3 chips, seat 0 posts the big
blind 50 (pot 53, bet-to-call 50). -/
def shortDeal0 : Option Deal := (Deal.mk0 [mkPlayer 1000, mkPlayer 3]).start_deal scenCfg

/-- ... then seat 0 checks/calls, finishing the pre-flop round. -/
def shortDeal1 : Option Deal :=
  shortDeal0.bind (fun d => (d.action scenCfg 1 0 false).map Prod.fst)

/-- ... flop and turn revealed (both betting rounds auto-skipped since seat 1
is all-in). -/
def shortDeal2 : Option Deal :=
  (shortDeal1.map (Deal.next_round scenCfg [0, 0])).map (Deal.next_round scenCfg [0, 0])

/-- ... river revealed with both hands scoring 7: a split pot at showdown. -/
def shortDealTie : Option Deal := shortDeal2.map (Deal.next_round scenCfg [7, 7])

/-- ... river revealed with the all-in seat 1 holding the better hand (9 vs 5). -/
def shortDealWin1 : Option Deal := shortDeal2.map (Deal.next_round scenCfg [5, 9])

/-- Two players with 1000 chips each after the blinds: seat 1 posted 25, seat 0
posted 50. -/
def evenDeal0 : Option Deal := (Deal.mk0 [mkPlayer 1000, mkPlayer 1000]).start_deal scenCfg

/-- ... then the small blind (seat 1) calls: both players have now matched the
bet-to-call of 50, but the big blind still has the option. -/
def evenDeal1 : Option Deal :=
  evenDeal0.bind (fun d => (d.action scenCfg 1 0 false).map Prod.fst)

/-- Mid-round state for the raise-capping claim: seat 0 (to act) has 30 chips
and no commitment; seat 1 has bet 50, which is the current bet-to-call. -/
def capDeal : Deal :=
  { players := [mkPlayer 30, { mkPlayer 1000 with bet_amount := 50 }],
    winners := [], pot := 50, bet_amount := 50, current_turn := 0,
    blinds := (0, 1), round_finished := false, ncommunity := 0 }

/-- A room holding one seated player named 7 who is flagged to leave, with a
queued joiner also named 5, while a game is in progress. -/
def scenRoom : Room :=
  { players := [{ name := 7, chips := 500, leave_next_hand := true, player_number := 0 }],
    joining_queue := [{ name := 5, chips := 1000, leave_next_hand := false, player_number := 0 }],
    spectators := [], game_in_progress := true, hand_winners := false,
    starting_chips := 1000 }

/-- The lowercase 4-character room code `"abcd"`. -/
def lowercaseCode : List Char := ['a', 'b', 'c', 'd']

/-- The ace-low straight hand A-2-3-4-5 in mixed suits. -/
def aceLowHand : List Card := [⟨14, 0⟩, ⟨2, 1⟩, ⟨3, 2⟩, ⟨4, 3⟩, ⟨5, 0⟩]

/-- The ace-high straight hand 10-J-Q-K-A in mixed suits. -/
def aceHighHand : List Card := [⟨10, 0⟩, ⟨11, 1⟩, ⟨12, 2⟩, ⟨13, 3⟩, ⟨14, 0⟩]

/-! ## Auxiliary definitions used in the statements and proofs -/

/-- How many of the indices `k, k+1, ..., k+n-1` lie in `w`. -/
def countIdxIn (w : List Nat) (k : Nat) : Nat → Nat
  | 0 => 0
  | n + 1 => (if w.contains k then 1 else 0) + countIdxIn w (k + 1) n

/-- Invariant tying the `called` flag to the bet-to-call: every player flagged
`called` who is not all-in has matched `bet_amount` exactly.  Blind posts
leave `called` unset, so the converse does not hold. -/
def calledMatched (d : Deal) : Prop :=
  ∀ p ∈ d.players, p.called = true → p.all_in = false → p.bet_amount = d.bet_amount

instance (d : Deal) : Decidable (calledMatched d) :=
  decidable_of_iff
    (∀ p ∈ d.players, p.called = true → p.all_in = false →
      p.bet_amount = d.bet_amount) Iff.rfl

/-- Well-formed ranking data: a category constant between royal flush (1) and
high card (10), and exactly five tie-break card ranks, each below 15. -/
def validRanking (h : ScoredRanking) : Prop :=
  1 ≤ h.ranking_type ∧ h.ranking_type ≤ 10 ∧ h.tiebreak.length = 5 ∧
    ∀ d ∈ h.tiebreak, d < 15

instance (h : ScoredRanking) : Decidable (validRanking h) :=
  decidable_of_iff
    (1 ≤ h.ranking_type ∧ h.ranking_type ≤ 10 ∧ h.tiebreak.length = 5 ∧
      ∀ d ∈ h.tiebreak, d < 15) Iff.rfl

/-- A deal whose turn-scan guard holds: only one player is still unfolded. -/
def guardDeal : Deal :=
  { players := [mkPlayer 5, { mkPlayer 5 with folded := true }],
    winners := [], pot := 0, bet_amount := 0, current_turn := 0,
    blinds := (0, 1), round_finished := false, ncommunity := 0 }

/-! ## Helper lemmas: lists of players -/

lemma moneySum_nil : moneySum [] = 0 := rfl

lemma moneySum_cons (p : PlayerHand) (t : List PlayerHand) :
    moneySum (p :: t) = p.money + moneySum t := by
  simp [moneySum]

lemma getD_map_resetCalled (ps : List PlayerHand) (i : Nat) :
    (ps.map resetCalled).getD i default = resetCalled (ps.getD i default) := by
  induction ps generalizing i with
  | nil => cases i <;> rfl
  | cons p t ih =>
    cases i with
    | zero => rfl
    | succ j => simpa using ih j

lemma moneySum_map_resetCalled (ps : List PlayerHand) :
    moneySum (ps.map resetCalled) = moneySum ps := by
  induction ps with
  | nil => rfl
  | cons p t ih => simp [moneySum_cons, ih, resetCalled]

lemma moneySum_set (ps : List PlayerHand) (i : Nat) (p : PlayerHand)
    (h : i < ps.length) :
    moneySum (ps.set i p) = moneySum ps - (ps.getD i default).money + p.money := by
  induction ps generalizing i with
  | nil => simp at h
  | cons q t ih =>
    cases i with
    | zero => simp [moneySum_cons]; ring
    | succ j =>
      have hj : j < t.length := by simpa using h
      simp only [List.set_cons_succ, moneySum_cons, List.getD_cons_succ, ih j hj]
      ring

lemma getD_set_self (ps : List PlayerHand) (i : Nat) (p : PlayerHand)
    (h : i < ps.length) : (ps.set i p).getD i default = p := by
  induction ps generalizing i with
  | nil => simp at h
  | cons q t ih =>
    cases i with
    | zero => rfl
    | succ j =>
      have hj : j < t.length := by simpa using h
      simpa using ih j hj

lemma getD_set_ne (ps : List PlayerHand) (i j : Nat) (p : PlayerHand)
    (h : i ≠ j) : (ps.set i p).getD j default = ps.getD j default := by
  induction ps generalizing i j with
  | nil => cases j <;> rfl
  | cons q t ih =>
    cases i with
    | zero =>
      cases j with
      | zero => exact absurd rfl h
      | succ j' => simp
    | succ i' =>
      cases j with
      | zero => rfl
      | succ j' =>
        have : i' ≠ j' := fun hh => h (by rw [hh])
        simpa using ih i' j' this

lemma exists_getD_of_mem {p : PlayerHand} {ps : List PlayerHand} (h : p ∈ ps) :
    ∃ i, i < ps.length ∧ ps.getD i default = p := by
  induction ps with
  | nil => simp at h
  | cons q t ih =>
    rcases List.mem_cons.mp h with rfl | ht
    · exact ⟨0, by simp, rfl⟩
    · obtain ⟨i, hi, hgd⟩ := ih ht
      exact ⟨i + 1, by simpa using hi, by simpa using hgd⟩

lemma countNotFolded_pos_of_mem {p : PlayerHand} {ps : List PlayerHand}
    (h : p ∈ ps) (hf : p.folded = false) : 0 < countNotFolded ps := by
  have : p ∈ ps.filter (fun q => !q.folded) := by
    simp [List.mem_filter, h, hf]
  exact List.length_pos.mpr (List.ne_nil_of_mem this)

lemma countNotFolded_set (ps : List PlayerHand) (i : Nat) (p : PlayerHand)
    (h : p.folded = (ps.getD i default).folded) :
    countNotFolded (ps.set i p) = countNotFolded ps := by
  induction ps generalizing i with
  | nil => rfl
  | cons q t ih =>
    cases i with
    | zero =>
      simp only [List.getD_cons_zero] at h
      simp only [List.set_cons_zero, countNotFolded, List.filter, h]
      cases q.folded <;> simp
    | succ j =>
      simp only [List.getD_cons_succ] at h
      simp only [List.set_cons_succ, countNotFolded, List.filter]
      have := ih j h
      simp only [countNotFolded] at this
      cases q.folded <;> simp [this]

lemma countNotFolded_map_resetCalled (ps : List PlayerHand) :
    countNotFolded (ps.map resetCalled) = countNotFolded ps := by
  induction ps with
  | nil => rfl
  | cons q t ih =>
    simp only [List.map_cons, countNotFolded, List.filter]
    have : (resetCalled q).folded = q.folded := rfl
    rw [this]
    have ihn : (List.filter (fun p => !p.folded) (t.map resetCalled)).length =
        (List.filter (fun p => !p.folded) t).length := ih
    cases q.folded <;> simp [ihn]

/-! ## Helper lemmas: the payout walk -/

lemma length_payWinnersFrom (w : List Nat) (share : Int) :
    ∀ (k : Nat) (ps : List PlayerHand),
      (payWinnersFrom w share k ps).length = ps.length := by
  intro k ps
  induction ps generalizing k with
  | nil => rfl
  | cons p t ih => simp [payWinnersFrom, ih]

lemma getD_payWinnersFrom (w : List Nat) (share : Int) :
    ∀ (ps : List PlayerHand) (k i : Nat), i < ps.length →
      (payWinnersFrom w share k ps).getD i default =
        (if w.contains (k + i) then
          { ps.getD i default with money := (ps.getD i default).money + share }
        else ps.getD i default) := by
  intro ps
  induction ps with
  | nil => intro k i h; simp at h
  | cons p t ih =>
    intro k i h
    cases i with
    | zero => simp [payWinnersFrom]
    | succ j =>
      have hj : j < t.length := by simpa using h
      have := ih (k + 1) j hj
      simp only [payWinnersFrom, List.getD_cons_succ, this,
        Nat.add_assoc, Nat.add_comm 1 j]

lemma moneySum_payWinnersFrom (w : List Nat) (share : Int) :
    ∀ (ps : List PlayerHand) (k : Nat),
      moneySum (payWinnersFrom w share k ps) =
        moneySum ps + share * (countIdxIn w k ps.length : Int) := by
  intro ps
  induction ps with
  | nil => intro k; simp [payWinnersFrom, moneySum_nil, countIdxIn]
  | cons p t ih =>
    intro k
    simp only [payWinnersFrom, moneySum_cons, List.length_cons, countIdxIn, ih (k + 1)]
    by_cases hw : k ∈ w
    · simp only [List.contains, List.elem_iff.mpr hw, if_pos rfl, hw, if_true]
      push_cast
      ring
    · have hcf : List.elem k w = false := by
        simpa [List.elem_iff] using hw
      simp [List.contains, hcf, hw]
      ring

lemma flags_payWinnersFrom (w : List Nat) (share : Int) :
    ∀ (ps : List PlayerHand) (k : Nat) (p : PlayerHand),
      p ∈ payWinnersFrom w share k ps →
      ∃ q ∈ ps, p.called = q.called ∧ p.all_in = q.all_in ∧
        p.bet_amount = q.bet_amount ∧ p.folded = q.folded := by
  intro ps
  induction ps with
  | nil => intro k p h; simp [payWinnersFrom] at h
  | cons q t ih =>
    intro k p h
    simp only [payWinnersFrom, List.mem_cons] at h
    rcases h with h | h
    · refine ⟨q, List.mem_cons_self q t, ?_⟩
      subst h
      split <;> exact ⟨rfl, rfl, rfl, rfl⟩
    · obtain ⟨q', hq', hflags⟩ := ih (k + 1) p h
      exact ⟨q', List.mem_cons_of_mem q hq', hflags⟩

lemma countIdxIn_congr (w w' : List Nat) :
    ∀ (n k : Nat), (∀ j, k ≤ j → j < k + n → (j ∈ w ↔ j ∈ w')) →
      countIdxIn w k n = countIdxIn w' k n := by
  intro n
  induction n with
  | zero => intro k _; rfl
  | succ m ih =>
    intro k hagree
    have hk : w.contains k = w'.contains k := by
      have := hagree k (le_refl k) (by omega)
      by_cases h : k ∈ w
      · have h' : k ∈ w' := this.mp h
        simp [List.contains, List.elem_iff, h, h']
      · have h' : k ∉ w' := fun hh => h (this.mpr hh)
        simp [List.contains, List.elem_iff, h, h']
    simp only [countIdxIn, hk]
    rw [ih (k + 1) (fun j hj1 hj2 => hagree j (by omega) (by omega))]

lemma countIdxIn_eq_length :
    ∀ (n : Nat) (w : List Nat) (k : Nat), w.Nodup →
      (∀ j ∈ w, k ≤ j ∧ j < k + n) → countIdxIn w k n = w.length := by
  intro n
  induction n with
  | zero =>
    intro w k _ hbound
    have : w = [] := by
      cases w with
      | nil => rfl
      | cons a t =>
        have := hbound a (List.mem_cons_self a t)
        omega
    simp [this, countIdxIn]
  | succ m ih =>
    intro w k hnd hbound
    by_cases hk : k ∈ w
    · have hcont : w.contains k = true := by
        simp [List.contains, List.elem_iff, hk]
      have herase :
          countIdxIn w (k + 1) m = countIdxIn (w.erase k) (k + 1) m := by
        apply countIdxIn_congr
        intro j hj1 _
        have hjk : j ≠ k := by omega
        constructor
        · intro hjw
          exact (List.Nodup.mem_erase_iff hnd).mpr ⟨hjk, hjw⟩
        · intro hje
          exact ((List.Nodup.mem_erase_iff hnd).mp hje).2
      have hbound' : ∀ j ∈ w.erase k, k + 1 ≤ j ∧ j < (k + 1) + m := by
        intro j hj
        obtain ⟨hjk, hjw⟩ := (List.Nodup.mem_erase_iff hnd).mp hj
        have := hbound j hjw
        omega
      have hlen : (w.erase k).length = w.length - 1 :=
        List.length_erase_of_mem hk
      have hpos : 0 < w.length := List.length_pos.mpr (List.ne_nil_of_mem hk)
      have hih := ih (w.erase k) (k + 1) (List.Nodup.erase k hnd) hbound'
      have step : countIdxIn w k (m + 1) = 1 + countIdxIn w (k + 1) m := by
        simp [countIdxIn, hcont, hk]
      rw [step, herase, hih, hlen]
      omega
    · have hcont : w.contains k = false := by
        simp [List.contains, List.elem_iff, hk]
      have hbound' : ∀ j ∈ w, k + 1 ≤ j ∧ j < (k + 1) + m := by
        intro j hj
        have hb := hbound j hj
        have hne : j ≠ k := fun hh => hk (hh ▸ hj)
        omega
      simp [countIdxIn, hcont, hk, ih w (k + 1) hnd hbound']

/-! ## Helper lemmas: `PlayerHand.bet` -/

lemma bet_conserve (p : PlayerHand) (pot nb : Int) (bl : Bool) :
    (p.bet pot nb bl).2 + (p.bet pot nb bl).1.money = pot + p.money := by
  simp only [PlayerHand.bet]
  split <;> ring

lemma bet_folded (p : PlayerHand) (pot nb : Int) (bl : Bool) :
    (p.bet pot nb bl).1.folded = p.folded := by
  simp only [PlayerHand.bet]

lemma bet_score (p : PlayerHand) (pot nb : Int) (bl : Bool) :
    (p.bet pot nb bl).1.score = p.score := by
  simp only [PlayerHand.bet]

lemma bet_called (p : PlayerHand) (pot nb : Int) (bl : Bool) :
    (p.bet pot nb bl).1.called = if bl then p.called else true := by
  simp only [PlayerHand.bet]

lemma bet_not_all_in (p : PlayerHand) (pot nb : Int) (bl : Bool)
    (h : (p.bet pot nb bl).1.all_in = false) :
    (p.bet pot nb bl).1.bet_amount = nb ∧ p.all_in = false := by
  simp only [PlayerHand.bet] at h ⊢
  by_cases hcap : p.money ≤ nb - p.bet_amount
  · simp [hcap] at h
  · simp [hcap] at h ⊢
    exact h

lemma bet_all_in_cap (p : PlayerHand) (pot : Int) (bl : Bool) :
    (p.bet pot (p.money + p.bet_amount) bl).1.all_in = true ∧
    (p.bet pot (p.money + p.bet_amount) bl).1.money = 0 ∧
    (p.bet pot (p.money + p.bet_amount) bl).2 = pot + p.money ∧
    (p.bet pot (p.money + p.bet_amount) bl).1.bet_amount = p.money + p.bet_amount := by
  have hc : p.money ≤ p.money + p.bet_amount - p.bet_amount := by omega
  simp [PlayerHand.bet, hc]

/-! ## Helper lemmas: list maximum -/

lemma foldl_max_eq_or_mem (r : List Int) :
    ∀ a : Int, r.foldl max a = a ∨ r.foldl max a ∈ r := by
  induction r with
  | nil => intro a; left; rfl
  | cons b r ih =>
    intro a
    rcases ih (max a b) with h | h
    · rcases max_choice a b with hm | hm
      · left; rw [List.foldl_cons, h, hm]
      · right; rw [List.foldl_cons, h, hm]; exact List.mem_cons_self b r
    · right; exact List.mem_cons_of_mem b h

lemma le_foldl_max_self (r : List Int) : ∀ a : Int, a ≤ r.foldl max a := by
  induction r with
  | nil => intro a; exact le_refl a
  | cons b r ih =>
    intro a
    calc a ≤ max a b := le_max_left a b
    _ ≤ r.foldl max (max a b) := ih (max a b)
    _ = (b :: r).foldl max a := rfl

lemma le_foldl_max_of_mem (r : List Int) :
    ∀ (a x : Int), x ∈ r → x ≤ r.foldl max a := by
  induction r with
  | nil => intro a x h; simp at h
  | cons b r ih =>
    intro a x h
    rcases List.mem_cons.mp h with rfl | h
    · calc x ≤ max a x := le_max_right a x
      _ ≤ r.foldl max (max a x) := le_foldl_max_self r (max a x)
      _ = (x :: r).foldl max a := rfl
    · exact ih (max a b) x h

lemma listMaxInt_mem (l : List Int) (h : l ≠ []) : listMaxInt l ∈ l := by
  cases l with
  | nil => exact absurd rfl h
  | cons a r =>
    rcases foldl_max_eq_or_mem r a with hm | hm
    · simp [listMaxInt, hm]
    · simp [listMaxInt]
      right
      exact hm

lemma le_listMaxInt (l : List Int) (x : Int) (h : x ∈ l) : x ≤ listMaxInt l := by
  cases l with
  | nil => simp at h
  | cons a r =>
    rcases List.mem_cons.mp h with rfl | hr
    · exact le_foldl_max_self r x
    · exact le_foldl_max_of_mem r a x hr

/-! ## Helper lemmas: `Deal.showdown` -/

lemma mem_notFoldedIdx (d : Deal) (j : Nat) :
    j ∈ notFoldedIdx d ↔
      j < d.players.length ∧ (d.players.getD j default).folded = false := by
  simp [notFoldedIdx, List.mem_filter, List.mem_range]

lemma notFoldedIdx_nodup (d : Deal) : (notFoldedIdx d).Nodup :=
  (List.nodup_range _).filter _

lemma mem_showdownWinners (d : Deal) (j : Nat) :
    j ∈ showdownWinners d ↔
      j < d.players.length ∧ (d.players.getD j default).folded = false ∧
      (d.players.getD j default).score = maxScoreOf d := by
  simp [showdownWinners, List.mem_filter, mem_notFoldedIdx, and_assoc]

lemma showdownWinners_nodup (d : Deal) : (showdownWinners d).Nodup :=
  (notFoldedIdx_nodup d).filter _

lemma showdownWinners_ne_nil (d : Deal) (h : notFoldedIdx d ≠ []) :
    showdownWinners d ≠ [] := by
  have hmap : (notFoldedIdx d).map (fun j => (d.players.getD j default).score) ≠ [] := by
    simpa using h
  have hmem := listMaxInt_mem _ hmap
  obtain ⟨j, hj, hsc⟩ := List.mem_map.mp hmem
  have hbeq : ((d.players.getD j default).score == maxScoreOf d) = true := by
    rw [maxScoreOf]
    exact beq_iff_eq.mpr hsc
  have hjw : j ∈ showdownWinners d := by
    simp only [showdownWinners, List.mem_filter]
    exact ⟨hj, hbeq⟩
  exact List.ne_nil_of_mem hjw

lemma showdown_eq_of_ne (d : Deal) (h : notFoldedIdx d ≠ []) :
    d.showdown =
      { d with
          winners := showdownWinners d
          players := payWinnersFrom (showdownWinners d)
            (d.pot.fdiv ((showdownWinners d).length : Int)) 0 d.players } := by
  simp [Deal.showdown, h]

lemma showdown_moneySum (d : Deal) (h : notFoldedIdx d ≠ []) :
    moneySum d.showdown.players =
      moneySum d.players +
        (d.pot.fdiv ((showdownWinners d).length : Int)) *
          ((showdownWinners d).length : Int) := by
  rw [showdown_eq_of_ne d h]
  have hb : ∀ j ∈ showdownWinners d, 0 ≤ j ∧ j < 0 + d.players.length := by
    intro j hj
    have := (mem_showdownWinners d j).mp hj
    omega
  rw [moneySum_payWinnersFrom, countIdxIn_eq_length d.players.length
    (showdownWinners d) 0 (showdownWinners_nodup d) hb]

/-! ## Helper lemmas: `Deal.afterAction` -/

lemma afterAction_players (d : Deal) : d.afterAction.players = d.players := by
  rw [Deal.afterAction]
  split <;> rfl

lemma afterAction_pot (d : Deal) : d.afterAction.pot = d.pot := by
  rw [Deal.afterAction]
  split <;> rfl

lemma afterAction_winners (d : Deal) : d.afterAction.winners = d.winners := by
  rw [Deal.afterAction]
  split <;> rfl

lemma afterAction_bet_amount (d : Deal) : d.afterAction.bet_amount = d.bet_amount := by
  rw [Deal.afterAction]
  split <;> rfl

lemma afterAction_round_finished (d : Deal) :
    d.afterAction.round_finished = (allCalledOrAllIn d.players || d.round_finished) := by
  rw [Deal.afterAction]
  split
  · next hc => simp [hc]
  · next hc =>
    simp only [Bool.not_eq_true] at hc
    simp [hc]

lemma afterAction_turn_finished (d : Deal) (h : allCalledOrAllIn d.players = true) :
    d.afterAction.current_turn = d.current_turn := by
  rw [Deal.afterAction]
  split
  · rfl
  · next hc => exact absurd h hc

lemma afterAction_turn_advance (d : Deal) (h : allCalledOrAllIn d.players = false) :
    d.afterAction.current_turn = (d.get_next_turn 1 none).getD d.current_turn := by
  rw [Deal.afterAction]
  split
  · next hc => rw [h] at hc; exact absurd hc (by simp)
  · rfl

/-! ## Helper lemmas: termination and soundness of the turn scan -/

lemma canAct_true {p : PlayerHand} (h : canAct p = true) :
    p.folded = false ∧ p.all_in = false := by
  rw [canAct] at h
  cases hf : p.folded
  · cases ha : p.all_in
    · exact ⟨rfl, rfl⟩
    · rw [hf, ha] at h; simp at h
  · rw [hf] at h; simp at h

lemma canAct_of_flags {p : PlayerHand} (h1 : p.folded = false)
    (h2 : p.all_in = false) : canAct p = true := by
  rw [canAct, h1, h2]
  rfl

lemma canAct_false {p : PlayerHand} (h : ¬canAct p = true) :
    (p.folded || p.all_in) = true := by
  cases hf : p.folded
  · cases ha : p.all_in
    · exact absurd (canAct_of_flags hf ha) h
    · rfl
  · rfl

lemma canAct_or_false {p : PlayerHand} (h : canAct p = true) :
    (p.folded || p.all_in) = false := by
  obtain ⟨h1, h2⟩ := canAct_true h
  rw [h1, h2]
  rfl

lemma getNextTurnAux_succ (ps : List PlayerHand) (fuel n turn : Nat) :
    getNextTurnAux ps (fuel + 1) n turn =
      (if ((ps.getD turn default).folded || (ps.getD turn default).all_in) = true then
        getNextTurnAux ps fuel n ((turn + 1) % ps.length)
      else if n = 0 then some turn
      else getNextTurnAux ps fuel (n - 1) ((turn + 1) % ps.length)) := rfl

lemma getNextTurnAux_skip (ps : List PlayerHand) :
    ∀ (s turn fuel n : Nat), turn < ps.length →
      canAct (ps.getD ((turn + s) % ps.length) default) = true → s < fuel →
      ∃ t fuel2, t < ps.length ∧ canAct (ps.getD t default) = true ∧
        fuel - s ≤ fuel2 ∧ 0 < fuel2 ∧
        getNextTurnAux ps fuel n turn = getNextTurnAux ps fuel2 n t := by
  intro s
  induction s with
  | zero =>
    intro turn fuel n hlt hact hfuel
    rw [Nat.add_zero, Nat.mod_eq_of_lt hlt] at hact
    exact ⟨turn, fuel, hlt, hact, by omega, by omega, rfl⟩
  | succ m ih =>
    intro turn fuel n hlt hact hfuel
    by_cases hturn : canAct (ps.getD turn default) = true
    · exact ⟨turn, fuel, hlt, hturn, by omega, by omega, rfl⟩
    · cases fuel with
      | zero => omega
      | succ f =>
        have hskip := canAct_false hturn
        have hlen : 0 < ps.length := by omega
        have hturn' : (turn + 1) % ps.length < ps.length := Nat.mod_lt _ hlen
        have hact' :
            canAct (ps.getD (((turn + 1) % ps.length + m) % ps.length) default) = true := by
          have hmod : ((turn + 1) % ps.length + m) % ps.length =
              (turn + (m + 1)) % ps.length := by
            rw [Nat.mod_add_mod]
            congr 1
            omega
          rw [hmod]
          exact hact
        obtain ⟨t, fuel2, h1, h2, h3, h4, h5⟩ :=
          ih ((turn + 1) % ps.length) f n hturn' hact' (by omega)
        refine ⟨t, fuel2, h1, h2, by omega, h4, ?_⟩
        rw [getNextTurnAux_succ, if_pos hskip]
        exact h5

lemma getNextTurnAux_sound (ps : List PlayerHand) :
    ∀ (n fuel turn : Nat), turn < ps.length →
      (∃ i, i < ps.length ∧ canAct (ps.getD i default) = true) →
      (n + 1) * ps.length ≤ fuel →
      ∃ j, getNextTurnAux ps fuel n turn = some j ∧ j < ps.length ∧
        canAct (ps.getD j default) = true := by
  intro n
  induction n with
  | zero =>
    intro fuel turn hlt hex hfuel
    obtain ⟨i, hi, hact⟩ := hex
    have hlen : 0 < ps.length := by omega
    have hs : (i + ps.length - turn) % ps.length < ps.length := Nat.mod_lt _ hlen
    have hacts :
        canAct (ps.getD ((turn + (i + ps.length - turn) % ps.length) % ps.length)
          default) = true := by
      have h1 : (turn + (i + ps.length - turn) % ps.length) % ps.length =
          (turn + (i + ps.length - turn)) % ps.length :=
        (Nat.mod_modEq (i + ps.length - turn) ps.length).add_left turn
      have h2 : turn + (i + ps.length - turn) = i + ps.length := by omega
      rw [h1, h2, Nat.add_mod_right, Nat.mod_eq_of_lt hi]
      exact hact
    have hsf : (i + ps.length - turn) % ps.length < fuel := by
      have h00 : (0 + 1) * ps.length = ps.length := by ring
      omega
    obtain ⟨t, fuel2, h1, h2, h3, h4, h5⟩ :=
      getNextTurnAux_skip ps ((i + ps.length - turn) % ps.length) turn fuel 0 hlt hacts hsf
    cases fuel2 with
    | zero => omega
    | succ f2 =>
      have hns := canAct_or_false h2
      have hnot : ¬(((ps.getD t default).folded || (ps.getD t default).all_in) = true) := by
        rw [hns]
        exact Bool.false_ne_true
      refine ⟨t, ?_, h1, h2⟩
      rw [h5, getNextTurnAux_succ, if_neg hnot, if_pos rfl]
  | succ m ih =>
    intro fuel turn hlt hex hfuel
    obtain ⟨i, hi, hact⟩ := hex
    have hlen : 0 < ps.length := by omega
    have hs : (i + ps.length - turn) % ps.length < ps.length := Nat.mod_lt _ hlen
    have hacts :
        canAct (ps.getD ((turn + (i + ps.length - turn) % ps.length) % ps.length)
          default) = true := by
      have h1 : (turn + (i + ps.length - turn) % ps.length) % ps.length =
          (turn + (i + ps.length - turn)) % ps.length :=
        (Nat.mod_modEq (i + ps.length - turn) ps.length).add_left turn
      have h2 : turn + (i + ps.length - turn) = i + ps.length := by omega
      rw [h1, h2, Nat.add_mod_right, Nat.mod_eq_of_lt hi]
      exact hact
    have hmul : (m + 1 + 1) * ps.length = (m + 1) * ps.length + ps.length := by ring
    have hsf : (i + ps.length - turn) % ps.length < fuel := by
      have h0 : 0 < (m + 1) * ps.length := by positivity
      omega
    obtain ⟨t, fuel2, h1, h2, h3, h4, h5⟩ :=
      getNextTurnAux_skip ps ((i + ps.length - turn) % ps.length) turn fuel (m + 1)
        hlt hacts hsf
    cases fuel2 with
    | zero => omega
    | succ f2 =>
      have hns := canAct_or_false h2
      have hnot : ¬(((ps.getD t default).folded || (ps.getD t default).all_in) = true) := by
        rw [hns]
        exact Bool.false_ne_true
      have hstep : getNextTurnAux ps (f2 + 1) (m + 1) t =
          getNextTurnAux ps f2 m ((t + 1) % ps.length) := by
        rw [getNextTurnAux_succ, if_neg hnot, if_neg (Nat.succ_ne_zero m)]
        congr 1
      have hturn' : (t + 1) % ps.length < ps.length := Nat.mod_lt _ hlen
      have hfuel' : (m + 1) * ps.length ≤ f2 := by omega
      obtain ⟨j, hj1, hj2, hj3⟩ := ih f2 ((t + 1) % ps.length) hturn' ⟨i, hi, hact⟩ hfuel'
      refine ⟨j, ?_, hj2, hj3⟩
      rw [h5, hstep]
      exact hj1

/-! ## Helper lemmas: base-15 encoding of the modelled score -/

lemma foldl_scoreStep_lt :
    ∀ (l : List Nat) (acc : Nat), (∀ d ∈ l, d < 15) →
      l.foldl scoreStep acc < (acc + 1) * 15 ^ l.length := by
  intro l
  induction l with
  | nil =>
    intro acc _
    simp
  | cons d t ih =>
    intro acc hb
    have hd : d < 15 := hb d (List.mem_cons_self d t)
    have ht : ∀ x ∈ t, x < 15 := fun x hx => hb x (List.mem_cons_of_mem d hx)
    have h1 := ih (scoreStep acc d) ht
    have h2 : (scoreStep acc d + 1) * 15 ^ t.length ≤ (acc + 1) * 15 ^ (t.length + 1) := by
      have hstep : scoreStep acc d + 1 ≤ (acc + 1) * 15 := by
        rw [scoreStep]
        omega
      calc (scoreStep acc d + 1) * 15 ^ t.length
          ≤ ((acc + 1) * 15) * 15 ^ t.length := Nat.mul_le_mul_right _ hstep
        _ = (acc + 1) * 15 ^ (t.length + 1) := by ring
    calc (d :: t).foldl scoreStep acc = t.foldl scoreStep (scoreStep acc d) := rfl
      _ < (scoreStep acc d + 1) * 15 ^ t.length := h1
      _ ≤ (acc + 1) * 15 ^ (t.length + 1) := h2
      _ = (acc + 1) * 15 ^ (d :: t).length := by rw [List.length_cons]

lemma foldl_scoreStep_inj :
    ∀ (l1 l2 : List Nat) (a1 a2 : Nat), l1.length = l2.length →
      (∀ d ∈ l1, d < 15) → (∀ d ∈ l2, d < 15) →
      l1.foldl scoreStep a1 = l2.foldl scoreStep a2 → a1 = a2 ∧ l1 = l2 := by
  intro l1
  induction l1 with
  | nil =>
    intro l2 a1 a2 hlen _ _ heq
    cases l2 with
    | nil => exact ⟨heq, rfl⟩
    | cons d t => simp at hlen
  | cons d1 t1 ih =>
    intro l2 a1 a2 hlen hb1 hb2 heq
    cases l2 with
    | nil => simp at hlen
    | cons d2 t2 =>
      have hlen' : t1.length = t2.length := by simpa using hlen
      have hb1' : ∀ x ∈ t1, x < 15 := fun x hx => hb1 x (List.mem_cons_of_mem d1 hx)
      have hb2' : ∀ x ∈ t2, x < 15 := fun x hx => hb2 x (List.mem_cons_of_mem d2 hx)
      have heq' : t1.foldl scoreStep (scoreStep a1 d1) =
          t2.foldl scoreStep (scoreStep a2 d2) := heq
      obtain ⟨hacc, htail⟩ := ih t2 (scoreStep a1 d1) (scoreStep a2 d2) hlen' hb1' hb2' heq'
      have hd1 : d1 < 15 := hb1 d1 (List.mem_cons_self d1 t1)
      have hd2 : d2 < 15 := hb2 d2 (List.mem_cons_self d2 t2)
      rw [scoreStep, scoreStep] at hacc
      have ha : a1 = a2 := by omega
      have hd : d1 = d2 := by omega
      exact ⟨ha, by rw [hd, htail]⟩

lemma scoreDigits_lt (l : List Nat) (hb : ∀ d ∈ l, d < 15) :
    scoreDigits l < 15 ^ l.length := by
  have := foldl_scoreStep_lt l 0 hb
  rw [scoreDigits]
  omega

lemma get_next_turn_guard (d : Deal) (n : Nat) (turn? : Option Nat)
    (hguard : countNotFolded d.players ≤ 1 ∨ allNotFoldedAllIn d.players = true) :
    d.get_next_turn n turn? = some (turn?.getD d.current_turn) := by
  simp only [Deal.get_next_turn]
  rw [if_pos hguard]

lemma filterIdx_length (ps : List PlayerHand) :
    ((List.range ps.length).filter (fun j => !(ps.getD j default).folded)).length =
      countNotFolded ps := by
  induction ps with
  | nil => rfl
  | cons q t ih =>
    rw [List.length_cons, List.range_succ_eq_map]
    rw [List.filter_cons]
    have hcomp :
        (List.filter (fun j => !((q :: t).getD j default).folded)
          ((List.range t.length).map Nat.succ)) =
        ((List.range t.length).filter (fun j => !(t.getD j default).folded)).map
          Nat.succ := by
      rw [List.filter_map]
      congr 1
    rw [hcomp]
    simp only [countNotFolded, List.getD_eq_getElem?_getD] at ih
    cases hq : q.folded <;>
      simp [hq, countNotFolded, List.filter_cons, ih, List.getD_cons_zero]

lemma notFoldedIdx_length (d : Deal) :
    (notFoldedIdx d).length = countNotFolded d.players :=
  filterIdx_length d.players

lemma notFoldedIdx_ne_nil (d : Deal) (h : 0 < countNotFolded d.players) :
    notFoldedIdx d ≠ [] := by
  intro hnil
  have := notFoldedIdx_length d
  rw [hnil] at this
  simp at this
  omega

lemma not_allCalledOrAllIn_witness {ps : List PlayerHand}
    (h : allCalledOrAllIn ps = false) :
    ∃ p ∈ ps, p.folded = false ∧ p.called = false ∧ p.all_in = false := by
  rw [allCalledOrAllIn] at h
  have : ¬(∀ p ∈ ps, (p.folded || (p.called || p.all_in)) = true) := by
    intro hall
    rw [List.all_eq_true.mpr hall] at h
    simp at h
  push_neg at this
  obtain ⟨p, hp, hflag⟩ := this
  refine ⟨p, hp, ?_⟩
  cases hf : p.folded
  · cases hc : p.called
    · cases ha : p.all_in
      · exact ⟨rfl, rfl, rfl⟩
      · rw [hf, hc, ha] at hflag; simp at hflag
    · rw [hf, hc] at hflag; simp at hflag
  · rw [hf] at hflag; simp at hflag

lemma get_next_turn_sound (d : Deal) (n : Nat) (turn? : Option Nat)
    (hlt : turn?.getD d.current_turn < d.players.length)
    (hguard : ¬(countNotFolded d.players ≤ 1 ∨ allNotFoldedAllIn d.players = true)) :
    ∃ j, d.get_next_turn n turn? = some j ∧ j < d.players.length ∧
      canAct (d.players.getD j default) = true := by
  simp only [Deal.get_next_turn]
  rw [if_neg hguard]
  have hlen : 0 < d.players.length := by omega
  have hex : ∃ i, i < d.players.length ∧ canAct (d.players.getD i default) = true := by
    have hnall : ¬(allNotFoldedAllIn d.players = true) := fun hh => hguard (Or.inr hh)
    rw [allNotFoldedAllIn] at hnall
    have : ∃ p ∈ d.players, ¬(p.folded || p.all_in) = true := by
      by_contra hc
      push_neg at hc
      exact hnall (List.all_eq_true.mpr (fun p hp => by
        have := hc p hp
        cases hx : (p.folded || p.all_in) <;> simp [hx] at this ⊢))
    obtain ⟨p, hp, hpc⟩ := this
    obtain ⟨i, hi, hgd⟩ := exists_getD_of_mem hp
    refine ⟨i, hi, ?_⟩
    rw [hgd, canAct]
    cases hf : p.folded <;> cases ha : p.all_in <;> simp [hf, ha] at hpc ⊢
  have hfuel : (n - 1 + 1) * d.players.length ≤ n * d.players.length + d.players.length := by
    have h1 : n - 1 + 1 ≤ n + 1 := by omega
    have h2 : (n - 1 + 1) * d.players.length ≤ (n + 1) * d.players.length :=
      Nat.mul_le_mul_right _ h1
    have h3 : (n + 1) * d.players.length = n * d.players.length + d.players.length := by
      ring
    omega
  exact getNextTurnAux_sound d.players (n - 1) (n * d.players.length + d.players.length)
    ((turn?.getD d.current_turn + 1) % d.players.length)
    (Nat.mod_lt _ hlen) hex hfuel

/-! ## Helper lemmas: chip conservation of a single action -/

lemma doCall_conserve (d : Deal) (hturn : d.current_turn < d.players.length) :
    d.doCall.pot + moneySum d.doCall.players = d.pot + moneySum d.players := by
  rw [Deal.doCall]
  have hset := moneySum_set d.players d.current_turn
    { (d.players.getD d.current_turn default).bet d.pot d.bet_amount false |>.1
        with called := true } hturn
  have hbet := bet_conserve (d.players.getD d.current_turn default) d.pot
    d.bet_amount false
  simp only [hset]
  simp only [PlayerHand.bet] at hbet ⊢
  omega

lemma doRaise_conserve (d : Deal) (na : Int) (bl : Bool)
    (hturn : d.current_turn < d.players.length) :
    (d.doRaise na bl).pot + moneySum (d.doRaise na bl).players =
      d.pot + moneySum d.players := by
  rw [Deal.doRaise]
  have hlen : d.current_turn < (d.players.map resetCalled).length := by
    simpa using hturn
  have hgd := getD_map_resetCalled d.players d.current_turn
  have hset := moneySum_set (d.players.map resetCalled) d.current_turn
    (((d.players.map resetCalled).getD d.current_turn default).bet d.pot
      (if (d.players.getD d.current_turn default).money +
          (d.players.getD d.current_turn default).bet_amount < na then
        (d.players.getD d.current_turn default).money +
          (d.players.getD d.current_turn default).bet_amount
      else na) bl |>.1) hlen
  have hbet := bet_conserve ((d.players.map resetCalled).getD d.current_turn default)
    d.pot
    (if (d.players.getD d.current_turn default).money +
        (d.players.getD d.current_turn default).bet_amount < na then
      (d.players.getD d.current_turn default).money +
        (d.players.getD d.current_turn default).bet_amount
    else na) bl
  have hmr := moneySum_map_resetCalled d.players
  have hmoney : ((d.players.map resetCalled).getD d.current_turn default).money =
      (d.players.getD d.current_turn default).money := by
    rw [hgd]
    rfl
  simp only [hset, hmr, hmoney] at *
  omega

lemma doFold_conserve_no_showdown (d : Deal)
    (hturn : d.current_turn < d.players.length)
    (hno : d.doFold.winners = d.winners) (hwin : d.winners = []) :
    d.doFold.pot + moneySum d.doFold.players = d.pot + moneySum d.players ∧
      d.doFold.pot = d.pot := by
  rw [Deal.doFold] at *
  set d1 : Deal := { d with
      players := d.players.set d.current_turn
        { d.players.getD d.current_turn default with folded := true } } with hd1
  by_cases hc : countNotFolded d1.players = 1
  · rw [if_pos hc] at hno
    exfalso
    have hne : notFoldedIdx d1 ≠ [] := notFoldedIdx_ne_nil d1 (by omega)
    rw [showdown_eq_of_ne d1 hne] at hno
    simp only at hno
    have := showdownWinners_ne_nil d1 hne
    rw [hwin] at hno
    exact this hno
  · rw [if_neg hc]
    constructor
    · have hset := moneySum_set d.players d.current_turn
        { d.players.getD d.current_turn default with folded := true } hturn
      simp only [hd1, hset]
      omega
    · rfl

lemma action_conserves (cfg : GameCfg) (d : Deal) (a : Nat) (na : Int) (bl : Bool)
    (d2 : Deal) (rc : Nat) (hturn : d.current_turn < d.players.length)
    (h : Deal.action cfg d a na bl = some (d2, rc)) (hwin2 : d2.winners = []) :
    d2.pot + moneySum d2.players = d.pot + moneySum d.players := by
  rw [Deal.action] at h
  split_ifs at h with h1 h2 h3 h4 h5 h6 h7
  · injection h with hpair
    injection hpair with hd hc
    rw [← hd]
  · injection h with hpair
    injection hpair with hd hc
    rw [← hd]
  · -- Fold
    injection h with hpair
    injection hpair with hd hc
    subst hd
    rw [afterAction_winners] at hwin2
    rw [afterAction_pot, afterAction_players]
    have hw : d.winners = [] := not_ne_iff.mp h3
    exact (doFold_conserve_no_showdown d hturn (hwin2.trans hw.symm) hw).1
  · -- Check/call
    injection h with hpair
    injection hpair with hd hc
    subst hd
    rw [afterAction_pot, afterAction_players]
    exact doCall_conserve d hturn
  · injection h with hpair
    injection hpair with hd hc
    rw [← hd]
  · injection h with hpair
    injection hpair with hd hc
    rw [← hd]
  · -- Bet/raise
    injection h with hpair
    injection hpair with hd hc
    subst hd
    rw [afterAction_pot, afterAction_players]
    exact doRaise_conserve d na bl hturn

lemma showdown_payout (d : Deal) (h : notFoldedIdx d ≠ []) :
    d.showdown.pot = d.pot ∧
    moneySum d.showdown.players =
      moneySum d.players + d.pot - d.pot.fmod ((showdownWinners d).length : Int) ∧
    (moneySum d.showdown.players = moneySum d.players + d.pot ↔
      ((showdownWinners d).length : Int) ∣ d.pot) := by
  have hpot : d.showdown.pot = d.pot := by
    rw [showdown_eq_of_ne d h]
  have hkpos : 0 < ((showdownWinners d).length : Int) := by
    have := showdownWinners_ne_nil d h
    have hlen : 0 < (showdownWinners d).length := List.length_pos.mpr this
    exact_mod_cast hlen
  have hfd := Int.fdiv_add_fmod d.pot ((showdownWinners d).length : Int)
  have hfd' : d.pot.fdiv ((showdownWinners d).length : Int) *
      ((showdownWinners d).length : Int) +
      d.pot.fmod ((showdownWinners d).length : Int) = d.pot := by
    rw [mul_comm]
    exact hfd
  have hms := showdown_moneySum d h
  have hsum : moneySum d.showdown.players =
      moneySum d.players + d.pot - d.pot.fmod ((showdownWinners d).length : Int) := by
    rw [hms]
    omega
  refine ⟨hpot, hsum, ?_⟩
  constructor
  · intro heq
    rw [hsum] at heq
    have hzero : d.pot.fmod ((showdownWinners d).length : Int) = 0 := by omega
    rw [Int.fmod_eq_emod _ (le_of_lt hkpos)] at hzero
    exact Int.dvd_of_emod_eq_zero hzero
  · intro hdvd
    rw [hsum, Int.fmod_eq_emod _ (le_of_lt hkpos),
      Int.emod_eq_zero_of_dvd hdvd]
    omega

/-! ## Helper lemmas: fields preserved by the action arms -/

lemma showdown_round_finished (d : Deal) : d.showdown.round_finished = d.round_finished := by
  rw [Deal.showdown]
  split <;> rfl

lemma showdown_bet_amount (d : Deal) : d.showdown.bet_amount = d.bet_amount := by
  rw [Deal.showdown]
  split <;> rfl

lemma showdown_current_turn (d : Deal) : d.showdown.current_turn = d.current_turn := by
  rw [Deal.showdown]
  split <;> rfl

lemma showdown_players_length (d : Deal) :
    d.showdown.players.length = d.players.length := by
  rw [Deal.showdown]
  split
  · rfl
  · exact length_payWinnersFrom _ _ 0 d.players

lemma doFold_round_finished (d : Deal) : d.doFold.round_finished = d.round_finished := by
  rw [Deal.doFold]
  split
  · rw [showdown_round_finished]
  · rfl

lemma doFold_bet_amount (d : Deal) : d.doFold.bet_amount = d.bet_amount := by
  rw [Deal.doFold]
  split
  · rw [showdown_bet_amount]
  · rfl

lemma doFold_current_turn (d : Deal) : d.doFold.current_turn = d.current_turn := by
  rw [Deal.doFold]
  split
  · rw [showdown_current_turn]
  · rfl

lemma doFold_players_length (d : Deal) :
    d.doFold.players.length = d.players.length := by
  rw [Deal.doFold]
  split
  · rw [showdown_players_length]
    exact List.length_set ..
  · exact List.length_set ..

lemma doCall_round_finished (d : Deal) : d.doCall.round_finished = d.round_finished := rfl

lemma doCall_bet_amount (d : Deal) : d.doCall.bet_amount = d.bet_amount := rfl

lemma doCall_current_turn (d : Deal) : d.doCall.current_turn = d.current_turn := rfl

lemma doCall_players_length (d : Deal) :
    d.doCall.players.length = d.players.length := List.length_set ..

lemma doRaise_round_finished (d : Deal) (na : Int) (bl : Bool) :
    (d.doRaise na bl).round_finished = d.round_finished := rfl

lemma doRaise_current_turn (d : Deal) (na : Int) (bl : Bool) :
    (d.doRaise na bl).current_turn = d.current_turn := rfl

lemma doRaise_players_length (d : Deal) (na : Int) (bl : Bool) :
    (d.doRaise na bl).players.length = d.players.length := by
  rw [Deal.doRaise]
  simp only [List.length_set, List.length_map]

/-! ## Helper lemmas: preservation of the called-matched invariant -/

lemma calledMatched_doCall (d : Deal) (hinv : calledMatched d) :
    calledMatched d.doCall := by
  intro p hp hc ha
  rw [doCall_bet_amount]
  rw [Deal.doCall] at hp
  simp only at hp
  rcases List.mem_or_eq_of_mem_set hp with hmem | heq
  · exact hinv p hmem hc ha
  · subst heq
    have hnall : ((d.players.getD d.current_turn default).bet d.pot d.bet_amount
        false).1.all_in = false := ha
    obtain ⟨hbet, _⟩ := bet_not_all_in (d.players.getD d.current_turn default)
      d.pot d.bet_amount false hnall
    exact hbet

lemma calledMatched_doRaise (d : Deal) (na : Int) (bl : Bool) :
    calledMatched (d.doRaise na bl) := by
  intro p hp hc ha
  rw [Deal.doRaise] at hp ⊢
  simp only at hp ⊢
  rcases List.mem_or_eq_of_mem_set hp with hmem | heq
  · obtain ⟨q, _, hq⟩ := List.mem_map.mp hmem
    rw [← hq] at hc
    exact absurd hc (by simp [resetCalled])
  · subst heq
    rw [bet_called] at hc
    by_cases hbl : bl = true
    · rw [if_pos hbl] at hc
      rw [getD_map_resetCalled] at hc
      exact absurd hc (by simp [resetCalled])
    · have hnall : (((d.players.map resetCalled).getD d.current_turn default).bet
          d.pot
          (if (d.players.getD d.current_turn default).money +
              (d.players.getD d.current_turn default).bet_amount < na then
            (d.players.getD d.current_turn default).money +
              (d.players.getD d.current_turn default).bet_amount
          else na) bl).1.all_in = false := ha
      obtain ⟨hbet, _⟩ := bet_not_all_in _ _ _ _ hnall
      exact hbet

lemma calledMatched_doFold (d : Deal) (hinv : calledMatched d)
    (hturn : d.current_turn < d.players.length) :
    calledMatched d.doFold := by
  intro p hp hc ha
  rw [doFold_bet_amount]
  rw [Deal.doFold] at hp
  set d1 : Deal := { d with
      players := d.players.set d.current_turn
        { d.players.getD d.current_turn default with folded := true } } with hd1
  have hmem1 : ∀ q ∈ d1.players, q.called = true → q.all_in = false →
      q.bet_amount = d.bet_amount := by
    intro q hq hqc hqa
    simp only [hd1] at hq
    rcases List.mem_or_eq_of_mem_set hq with hmem | heq
    · exact hinv q hmem hqc hqa
    · subst heq
      have hgmem : d.players.getD d.current_turn default ∈ d.players := by
        have := List.getD_eq_getElem d.players default hturn
        rw [this]
        exact List.getElem_mem ..
      exact hinv (d.players.getD d.current_turn default) hgmem hqc hqa
  split at hp
  · rw [Deal.showdown] at hp
    split at hp
    · exact hmem1 p hp hc ha
    · simp only at hp
      obtain ⟨q, hq, hqc, hqa, hqb, _⟩ := flags_payWinnersFrom _ _ _ _ p hp
      rw [hqc] at hc
      rw [hqa] at ha
      rw [hqb]
      exact hmem1 q hq hc ha
  · exact hmem1 p hp hc ha

lemma calledMatched_afterAction (d : Deal) (hinv : calledMatched d) :
    calledMatched d.afterAction := by
  intro p hp hc ha
  rw [afterAction_bet_amount]
  rw [afterAction_players] at hp
  exact hinv p hp hc ha

lemma allNotFoldedAllIn_false_of_witness {ps : List PlayerHand} {p : PlayerHand}
    (hp : p ∈ ps) (hf : p.folded = false) (ha : p.all_in = false) :
    allNotFoldedAllIn ps = false := by
  rw [allNotFoldedAllIn]
  by_contra hcon
  rw [Bool.not_eq_false] at hcon
  have := List.all_eq_true.mp hcon p hp
  rw [hf, ha] at this
  simp at this

/-- The shared tail of a successful action: finish flag, invariant, and turn
placement, for any of the three action arms `X`. -/
lemma afterAction_conclusions (X : Deal)
    (hfin : X.round_finished = false)
    (hinv : calledMatched X)
    (hturn : X.current_turn < X.players.length)
    (hcount2 : X.afterAction.winners = [] → allCalledOrAllIn X.players = false →
      2 ≤ countNotFolded X.players) :
    X.afterAction.round_finished = allCalledOrAllIn X.afterAction.players ∧
    calledMatched X.afterAction ∧
    (X.afterAction.round_finished = false → X.afterAction.winners = [] →
      X.afterAction.current_turn < X.afterAction.players.length ∧
      (X.afterAction.players.getD X.afterAction.current_turn default).folded = false ∧
      (X.afterAction.players.getD X.afterAction.current_turn default).all_in = false) := by
  have hrf : X.afterAction.round_finished = allCalledOrAllIn X.players := by
    rw [afterAction_round_finished, hfin, Bool.or_false]
  refine ⟨by rw [hrf, afterAction_players], calledMatched_afterAction X hinv, ?_⟩
  intro hf2 hw2
  rw [hrf] at hf2
  obtain ⟨p, hp, hpf, hpc, hpa⟩ := not_allCalledOrAllIn_witness hf2
  have hguard : ¬(countNotFolded X.players ≤ 1 ∨ allNotFoldedAllIn X.players = true) := by
    intro hg
    rcases hg with hg | hg
    · have := hcount2 hw2 hf2
      omega
    · rw [allNotFoldedAllIn_false_of_witness hp hpf hpa] at hg
      simp at hg
  obtain ⟨j, hj, hjlt, hjact⟩ := get_next_turn_sound X 1 none hturn hguard
  have hct : X.afterAction.current_turn = j := by
    rw [afterAction_turn_advance X hf2, hj]
    rfl
  rw [afterAction_players, hct]
  obtain ⟨hjf, hja⟩ := canAct_true hjact
  exact ⟨hjlt, hjf, hja⟩

/-- Claim C3's core: what a successful `action` guarantees about the finish
flag, bet matching, and the next turn. -/
lemma action_round_invariant (cfg : GameCfg) (d : Deal) (a : Nat) (na : Int)
    (bl : Bool) (d2 : Deal)
    (hturn : d.current_turn < d.players.length)
    (hcount : 2 ≤ countNotFolded d.players)
    (hinv : calledMatched d)
    (h : Deal.action cfg d a na bl = some (d2, ActionResult.SUCCESS)) :
    d2.round_finished = allCalledOrAllIn d2.players ∧
    calledMatched d2 ∧
    (d2.round_finished = false → d2.winners = [] →
      d2.current_turn < d2.players.length ∧
      (d2.players.getD d2.current_turn default).folded = false ∧
      (d2.players.getD d2.current_turn default).all_in = false) := by
  rw [Deal.action] at h
  split_ifs at h with h1 h2 h3 h4 h5 h6 h7
  · injection h with hpair
    injection hpair with hd hc
    exact absurd hc (by decide)
  · injection h with hpair
    injection hpair with hd hc
    exact absurd hc (by decide)
  · -- Fold
    injection h with hpair
    injection hpair with hd hc
    subst hd
    have hfin : d.doFold.round_finished = false := by
      rw [doFold_round_finished]
      simpa using h2
    have hturnF : d.doFold.current_turn < d.doFold.players.length := by
      rw [doFold_current_turn, doFold_players_length]
      exact hturn
    refine afterAction_conclusions d.doFold hfin
      (calledMatched_doFold d hinv hturn) hturnF ?_
    intro hw2 hall
    rw [afterAction_winners] at hw2
    rw [Deal.doFold] at hw2 hall ⊢
    set d1 : Deal := { d with
        players := d.players.set d.current_turn
          { d.players.getD d.current_turn default with folded := true } } with hd1
    by_cases hcnt : countNotFolded d1.players = 1
    · rw [if_pos hcnt] at hw2
      exfalso
      have hne1 : notFoldedIdx d1 ≠ [] := notFoldedIdx_ne_nil d1 (by omega)
      rw [showdown_eq_of_ne d1 hne1] at hw2
      simp only at hw2
      exact showdownWinners_ne_nil d1 hne1 hw2
    · rw [if_neg hcnt] at hall ⊢
      obtain ⟨p, hp, hpf, _, _⟩ := not_allCalledOrAllIn_witness hall
      have hpos := countNotFolded_pos_of_mem hp hpf
      omega
  · -- Check/call
    injection h with hpair
    injection hpair with hd hc
    subst hd
    have hfin : d.doCall.round_finished = false := by
      rw [doCall_round_finished]
      simpa using h2
    have hturnC : d.doCall.current_turn < d.doCall.players.length := by
      rw [doCall_current_turn, doCall_players_length]
      exact hturn
    refine afterAction_conclusions d.doCall hfin
      (calledMatched_doCall d hinv) hturnC ?_
    intro _ _
    have hcc : countNotFolded d.doCall.players = countNotFolded d.players := by
      rw [Deal.doCall]
      simp only
      exact countNotFolded_set d.players d.current_turn _
        (bet_folded (d.players.getD d.current_turn default) d.pot d.bet_amount false)
    omega
  · injection h with hpair
    injection hpair with hd hc
    exact absurd hc (by decide)
  · injection h with hpair
    injection hpair with hd hc
    exact absurd hc (by decide)
  · -- Bet/raise
    injection h with hpair
    injection hpair with hd hc
    subst hd
    have hfin : (d.doRaise na bl).round_finished = false := by
      rw [doRaise_round_finished]
      simpa using h2
    have hturnR : (d.doRaise na bl).current_turn < (d.doRaise na bl).players.length := by
      rw [doRaise_current_turn, doRaise_players_length]
      exact hturn
    refine afterAction_conclusions (d.doRaise na bl) hfin
      (calledMatched_doRaise d na bl) hturnR ?_
    intro _ _
    have hcc : countNotFolded (d.doRaise na bl).players = countNotFolded d.players := by
      rw [Deal.doRaise]
      simp only
      rw [countNotFolded_set _ _ _ (by exact bet_folded _ _ _ _),
        countNotFolded_map_resetCalled]
    omega

/-! ## Helper lemmas: the straight scan only improves the ranking -/

lemma straightCheck_le (cards : List Card) (cons : List Nat) (y r r' : Nat)
    (h : straightCheck cards cons y r = some r') : r' ≤ r ∨ r' ≤ 2 := by
  rw [straightCheck] at h
  rcases hfind : (cons.map (suitsOfRank cards)).find? (fun s => s.length == 1) with _ | ms
  · rw [hfind] at h
    exact Option.noConfusion h
  · rw [hfind] at h
    simp only at h
    split_ifs at h with hany hy
    · injection h with he
      left
      rw [← he]
      exact min_le_left r HandRanking.STRAIGHT
    · injection h with he
      right
      rw [← he]
      decide
    · injection h with he
      right
      rw [← he]
      decide

lemma straightScan_le (cards : List Card) :
    ∀ (rest : List Nat) (x : Nat) (cons : List Nat) (r r1 : Nat),
      straightScan cards rest x cons r = some r1 → r1 ≤ r ∨ r1 ≤ 2 := by
  intro rest
  induction rest with
  | nil =>
    intro x cons r r1 h
    injection h with he
    left
    omega
  | cons y rest ih =>
    intro x cons r r1 h
    simp only [straightScan] at h
    rcases hstep : (if 5 ≤ (if (x + 1 == y) = true then cons ++ [y] else [y]).length
        then straightCheck cards (if (x + 1 == y) = true then cons ++ [y] else [y]) y r
        else some r) with _ | r'
    · rw [hstep] at h
      exact Option.noConfusion h
    · rw [hstep] at h
      have hr1 := ih y (if (x + 1 == y) = true then cons ++ [y] else [y]) r' r1 h
      have hr' : r' ≤ r ∨ r' ≤ 2 := by
        by_cases hlen : 5 ≤ (if (x + 1 == y) = true then cons ++ [y] else [y]).length
        · rw [if_pos hlen] at hstep
          exact straightCheck_le cards _ y r r' hstep
        · rw [if_neg hlen] at hstep
          injection hstep with he
          left
          omega
      rcases hr1 with hr1 | hr1
      · rcases hr' with hr' | hr'
        · left; omega
        · right; omega
      · right; exact hr1

/-! ## Helper lemma: per-seat payout of the showdown -/

lemma showdown_money_at (d : Deal) (h : notFoldedIdx d ≠ []) (j : Nat)
    (hj : j < d.players.length) :
    (d.showdown.players.getD j default).money =
      (d.players.getD j default).money +
        (if j ∈ showdownWinners d then
          d.pot.fdiv ((showdownWinners d).length : Int) else 0) := by
  rw [showdown_eq_of_ne d h]
  simp only
  rw [getD_payWinnersFrom _ _ _ 0 j hj, Nat.zero_add]
  by_cases hw : j ∈ showdownWinners d
  · have hcont : (showdownWinners d).contains j = true := by
      simp [List.contains, List.elem_iff, hw]
    rw [if_pos hcont, if_pos hw]
  · have hcont : (showdownWinners d).contains j = false := by
      simp [List.contains, List.elem_iff, hw]
    rw [if_neg (by rw [hcont]; exact Bool.false_ne_true), if_neg hw]
    omega

/-! ## Helper lemmas: `sortAsc` is an insertion sort -/

lemma insertAsc_eq_orderedInsert :
    ∀ (l : List Nat) (x : Nat), insertAsc x l = List.orderedInsert (· ≤ ·) x l := by
  intro l
  induction l with
  | nil => intro x; rfl
  | cons y ys ih =>
    intro x
    rw [insertAsc, List.orderedInsert]
    by_cases h : x ≤ y
    · rw [if_pos h, if_pos h]
    · rw [if_neg h, if_neg h, ih]

lemma sortAsc_eq_insertionSort :
    ∀ l : List Nat, sortAsc l = List.insertionSort (· ≤ ·) l := by
  intro l
  induction l with
  | nil => rfl
  | cons y ys ih =>
    show insertAsc y (sortAsc ys) = List.orderedInsert (· ≤ ·) y (List.insertionSort (· ≤ ·) ys)
    rw [ih, insertAsc_eq_orderedInsert]

lemma sortAsc_perm (l : List Nat) : (sortAsc l).Perm l := by
  rw [sortAsc_eq_insertionSort]
  exact List.perm_insertionSort _ l

lemma mem_sortAsc (l : List Nat) (a : Nat) : a ∈ sortAsc l ↔ a ∈ l :=
  (sortAsc_perm l).mem_iff

lemma length_sortAsc (l : List Nat) : (sortAsc l).length = l.length :=
  (sortAsc_perm l).length_eq

lemma sortAsc_sorted_lt (l : List Nat) (h : l.Nodup) :
    List.Sorted (· < ·) (sortAsc l) := by
  have hs : List.Sorted (· ≤ ·) (sortAsc l) := by
    rw [sortAsc_eq_insertionSort]
    exact List.sorted_insertionSort _ l
  have hnd : (sortAsc l).Nodup := (sortAsc_perm l).nodup_iff.mpr h
  exact hs.lt_of_le hnd

lemma contains_iff_mem (l : List Nat) (v : Nat) : l.contains v = true ↔ v ∈ l := by
  simp [List.contains, List.elem_iff]

lemma distinctRanks_bounds (cards : List Card)
    (hv : ∀ c ∈ cards, 2 ≤ c.rank ∧ c.rank ≤ 14) :
    ∀ v ∈ distinctRanks cards, 2 ≤ v ∧ v ≤ 14 := by
  intro v hvm
  rw [distinctRanks, List.mem_dedup] at hvm
  obtain ⟨c, hc, rfl⟩ := List.mem_map.mp hvm
  exact hv c hc

/-! ## Helper lemmas: the run-length abstraction of the straight scan -/

lemma runReach_mono :
    ∀ (l : List Nat) (c c' x : Nat), c ≤ c' →
      runReach c x l = true → runReach c' x l = true := by
  intro l
  induction l with
  | nil =>
    intro c c' x _ h
    rw [runReach] at h
    exact absurd h (by simp)
  | cons y l ih =>
    intro c c' x hcc h
    rw [runReach] at h ⊢
    by_cases hxy : x + 1 = y
    · rw [if_pos hxy] at h ⊢
      by_cases h5' : 5 ≤ c' + 1
      · rw [if_pos h5']
      · have h5 : ¬5 ≤ c + 1 := by omega
        rw [if_neg h5] at h
        rw [if_neg h5']
        exact ih (c + 1) (c' + 1) y (by omega) h
    · rw [if_neg hxy] at h ⊢
      exact ih 1 1 y le_rfl h

lemma runReach_append_of_true :
    ∀ (l : List Nat) (c x : Nat) (t : List Nat),
      runReach c x l = true → runReach c x (l ++ t) = true := by
  intro l
  induction l with
  | nil =>
    intro c x t h
    rw [runReach] at h
    exact absurd h (by simp)
  | cons y l ih =>
    intro c x t h
    rw [List.cons_append, runReach]
    rw [runReach] at h
    by_cases hxy : x + 1 = y
    · rw [if_pos hxy] at h ⊢
      by_cases h5 : 5 ≤ c + 1
      · rw [if_pos h5]
      · rw [if_neg h5] at h ⊢
        exact ih _ _ _ h
    · rw [if_neg hxy] at h ⊢
      exact ih _ _ _ h

lemma runReach_append_one :
    ∀ (l : List Nat) (c x : Nat), 2 ≤ x → (∀ e ∈ l, 2 ≤ e) →
      runReach c x (l ++ [1]) = runReach c x l := by
  intro l
  induction l with
  | nil =>
    intro c x hx _
    have hr0 : runReach c x [] = false := rfl
    rw [List.nil_append, hr0, runReach, if_neg (show ¬x + 1 = 1 by omega)]
    rfl
  | cons y l ih =>
    intro c x hx hl
    rw [List.cons_append, runReach, runReach]
    by_cases hxy : x + 1 = y
    · rw [if_pos hxy, if_pos hxy]
      by_cases h5 : 5 ≤ c + 1
      · rw [if_pos h5, if_pos h5]
      · rw [if_neg h5, if_neg h5]
        exact ih (c + 1) y (hl y (List.mem_cons_self ..))
          (fun e he => hl e (List.mem_cons_of_mem _ he))
    · rw [if_neg hxy, if_neg hxy]
      exact ih 1 y (hl y (List.mem_cons_self ..))
        (fun e he => hl e (List.mem_cons_of_mem _ he))

lemma runReach_exists_run (L : List Nat) :
    ∀ (rest : List Nat) (x c : Nat),
      (∀ y ∈ rest, y ∈ L) →
      (∀ i, i < c → ∃ v, v ∈ L ∧ v + i = x) →
      runReach c x rest = true →
      ∃ lo, lo ∈ L ∧ lo + 1 ∈ L ∧ lo + 2 ∈ L ∧ lo + 3 ∈ L ∧ lo + 4 ∈ L := by
  intro rest
  induction rest with
  | nil =>
    intro x c _ _ h
    rw [runReach] at h
    exact absurd h (by simp)
  | cons y rest ih =>
    intro x c hsub hinv h
    rw [runReach] at h
    by_cases hxy : x + 1 = y
    · rw [if_pos hxy] at h
      by_cases h5 : 5 ≤ c + 1
      · obtain ⟨v, hv, hv3⟩ := hinv 3 (by omega)
        obtain ⟨v2, hv2, hv2e⟩ := hinv 2 (by omega)
        obtain ⟨v1, hv1, hv1e⟩ := hinv 1 (by omega)
        obtain ⟨v0, hv0, hv0e⟩ := hinv 0 (by omega)
        have hy : y ∈ L := hsub y (List.mem_cons_self ..)
        refine ⟨v, hv, ?_, ?_, ?_, ?_⟩
        · have hveq : v2 = v + 1 := by omega
          rwa [← hveq]
        · have hveq : v1 = v + 2 := by omega
          rwa [← hveq]
        · have hveq : v0 = v + 3 := by omega
          rwa [← hveq]
        · have hveq : y = v + 4 := by omega
          rwa [← hveq]
      · rw [if_neg h5] at h
        refine ih y (c + 1) (fun z hz => hsub z (List.mem_cons_of_mem _ hz)) ?_ h
        intro i hi
        cases i with
        | zero => exact ⟨y, hsub y (List.mem_cons_self ..), by omega⟩
        | succ j =>
          obtain ⟨v, hv, hvx⟩ := hinv j (by omega)
          exact ⟨v, hv, by omega⟩
    · rw [if_neg hxy] at h
      refine ih y 1 (fun z hz => hsub z (List.mem_cons_of_mem _ hz)) ?_ h
      intro i hi
      have hi0 : i = 0 := by omega
      subst hi0
      exact ⟨y, hsub y (List.mem_cons_self ..), by omega⟩

/-! ## Helper lemmas: strictly sorted lists force consecutive ranks adjacent -/

lemma sorted_next_head (l : List Nat) (a : Nat)
    (hs : List.Sorted (· < ·) (a :: l)) (hmem : a + 1 ∈ l) :
    ∃ l', l = (a + 1) :: l' ∧ List.Sorted (· < ·) ((a + 1) :: l') := by
  cases l with
  | nil => exact absurd hmem (List.not_mem_nil _)
  | cons y l' =>
    have hay : a < y := (List.sorted_cons.mp hs).1 y (List.mem_cons_self ..)
    have hst : List.Sorted (· < ·) (y :: l') := (List.sorted_cons.mp hs).2
    have hy : y = a + 1 := by
      rcases List.mem_cons.mp hmem with h | h
      · omega
      · have := (List.sorted_cons.mp hst).1 _ h
        omega
    subst hy
    exact ⟨l', rfl, hst⟩

lemma sorted_run_runReach (lo : Nat) :
    ∀ (l : List Nat) (x : Nat),
      List.Sorted (· < ·) (x :: l) →
      lo ∈ x :: l → lo + 1 ∈ x :: l → lo + 2 ∈ x :: l →
      lo + 3 ∈ x :: l → lo + 4 ∈ x :: l →
      runReach 1 x l = true := by
  intro l
  induction l with
  | nil =>
    intro x _ h0 _ _ _ h4
    rw [List.mem_singleton] at h0 h4
    omega
  | cons y l ih =>
    intro x hs h0 h1 h2 h3 h4
    have hsx : ∀ e ∈ y :: l, x < e := (List.sorted_cons.mp hs).1
    have hst : List.Sorted (· < ·) (y :: l) := (List.sorted_cons.mp hs).2
    by_cases hxlo : x = lo
    · subst hxlo
      -- the heads are forced to be x+1, x+2, x+3, x+4 in turn
      have hm1 : x + 1 ∈ y :: l := by
        rcases List.mem_cons.mp h1 with h | h
        · omega
        · exact h
      obtain ⟨l1, hl1, hs1⟩ := sorted_next_head (y :: l) x hs hm1
      have hm2 : x + 2 ∈ (x + 1) :: l1 := by
        rw [← hl1]
        rcases List.mem_cons.mp h2 with h | h
        · omega
        · exact h
      have hm2' : x + 1 + 1 ∈ l1 := by
        rcases List.mem_cons.mp hm2 with h | h
        · omega
        · have hxx : x + 1 + 1 = x + 2 := by omega
          rwa [hxx]
      obtain ⟨l2, hl2, hs2⟩ := sorted_next_head l1 (x + 1) hs1 hm2'
      have hm3 : x + 3 ∈ (x + 1) :: l1 := by
        rw [← hl1]
        rcases List.mem_cons.mp h3 with h | h
        · omega
        · exact h
      have hm3' : x + 1 + 1 + 1 ∈ l2 := by
        rcases List.mem_cons.mp hm3 with h | h
        · omega
        · rw [hl2] at h
          rcases List.mem_cons.mp h with h' | h'
          · omega
          · have hxx : x + 1 + 1 + 1 = x + 3 := by omega
            rwa [hxx]
      obtain ⟨l3, hl3, hs3⟩ := sorted_next_head l2 (x + 1 + 1) hs2 hm3'
      have hm4 : x + 4 ∈ (x + 1) :: l1 := by
        rw [← hl1]
        rcases List.mem_cons.mp h4 with h | h
        · omega
        · exact h
      have hm4' : x + 1 + 1 + 1 + 1 ∈ l3 := by
        rcases List.mem_cons.mp hm4 with h | h
        · omega
        · rw [hl2] at h
          rcases List.mem_cons.mp h with h' | h'
          · omega
          · rw [hl3] at h'
            rcases List.mem_cons.mp h' with h'' | h''
            · omega
            · have hxx : x + 1 + 1 + 1 + 1 = x + 4 := by omega
              rwa [hxx]
      obtain ⟨l4, hl4, _⟩ := sorted_next_head l3 (x + 1 + 1 + 1) hs3 hm4'
      rw [hl1, hl2, hl3, hl4]
      rw [runReach, if_pos rfl, if_neg (by omega)]
      rw [runReach, if_pos rfl, if_neg (by omega)]
      rw [runReach, if_pos rfl, if_neg (by omega)]
      rw [runReach, if_pos rfl, if_pos (by omega)]
    · -- x is below the run: all five members sit in the tail
      have hlo : lo ∈ y :: l := by
        rcases List.mem_cons.mp h0 with h | h
        · exact absurd h.symm hxlo
        · exact h
      have hxlt : x < lo := hsx lo hlo
      have hmem : ∀ i, lo + i ∈ x :: (y :: l) → lo + i ∈ y :: l := by
        intro i hm
        rcases List.mem_cons.mp hm with h | h
        · omega
        · exact h
      have hr := ih y hst (hmem 0 (by simpa using h0)) (hmem 1 h1) (hmem 2 h2)
        (hmem 3 h3) (hmem 4 h4)
      rw [runReach]
      by_cases hxy : x + 1 = y
      · rw [if_pos hxy, if_neg (by omega)]
        exact runReach_mono l 1 2 y (by omega) hr
      · rw [if_neg hxy]
        exact hr

/-! ## Helper lemmas: soundness and completeness of `runReach` for the scan -/

lemma straightCheck_le_straight (cards : List Card) (cons : List Nat)
    (y r r' : Nat) (h : straightCheck cards cons y r = some r') :
    r' ≤ HandRanking.STRAIGHT := by
  rw [straightCheck] at h
  rcases hfind : (cons.map (suitsOfRank cards)).find? (fun s => s.length == 1) with _ | ms
  · rw [hfind] at h
    exact Option.noConfusion h
  · rw [hfind] at h
    simp only at h
    split_ifs at h with hany hy
    · injection h with he
      rw [← he]
      exact min_le_right r HandRanking.STRAIGHT
    · injection h with he
      rw [← he]
      decide
    · injection h with he
      rw [← he]
      decide

lemma straightScan_no_run (cards : List Card) :
    ∀ (rest : List Nat) (x : Nat) (cons : List Nat) (r : Nat),
      runReach cons.length x rest = false →
      straightScan cards rest x cons r = some r := by
  intro rest
  induction rest with
  | nil => intro x cons r _; rw [straightScan]
  | cons y rest ih =>
    intro x cons r h
    rw [runReach] at h
    rw [straightScan]
    by_cases hxy : x + 1 = y
    · rw [if_pos hxy] at h
      have hbeq : (x + 1 == y) = true := beq_iff_eq.mpr hxy
      by_cases h5 : 5 ≤ cons.length + 1
      · rw [if_pos h5] at h
        exact absurd h (by simp)
      · rw [if_neg h5] at h
        simp only [hbeq, if_pos]
        rw [if_neg (by simp only [List.length_append, List.length_cons,
          List.length_nil]; omega)]
        have hlen : (cons ++ [y]).length = cons.length + 1 := by
          simp [List.length_append]
        rw [← hlen] at h
        exact ih y (cons ++ [y]) r h
    · rw [if_neg hxy] at h
      have hbeq : (x + 1 == y) = false := by
        rw [beq_eq_false_iff_ne]
        exact hxy
      simp only [hbeq, Bool.false_eq_true, if_neg, if_false]
      rw [if_neg (by simp)]
      have hlen : ([y] : List Nat).length = 1 := rfl
      rw [← hlen] at h
      exact ih y [y] r h

lemma straightScan_run_le (cards : List Card) :
    ∀ (rest : List Nat) (x : Nat) (cons : List Nat) (r r1 : Nat),
      runReach cons.length x rest = true →
      straightScan cards rest x cons r = some r1 →
      r1 ≤ HandRanking.STRAIGHT := by
  intro rest
  induction rest with
  | nil =>
    intro x cons r r1 hrr _
    rw [runReach] at hrr
    exact absurd hrr (by simp)
  | cons y rest ih =>
    intro x cons r r1 hrr h
    rw [runReach] at hrr
    rw [straightScan] at h
    by_cases hxy : x + 1 = y
    · rw [if_pos hxy] at hrr
      have hbeq : (x + 1 == y) = true := beq_iff_eq.mpr hxy
      simp only [hbeq, if_pos] at h
      by_cases h5 : 5 ≤ cons.length + 1
      · have h5' : 5 ≤ (cons ++ [y]).length := by
          simp only [List.length_append, List.length_cons, List.length_nil]
          omega
        rw [if_pos h5'] at h
        rcases hstep : straightCheck cards (cons ++ [y]) y r with _ | r'
        · rw [hstep] at h
          exact Option.noConfusion h
        · rw [hstep] at h
          have hr' := straightCheck_le_straight cards (cons ++ [y]) y r r' hstep
          have hle := straightScan_le cards rest y (cons ++ [y]) r' r1 h
          have h26 : (2 : Nat) ≤ HandRanking.STRAIGHT := by decide
          rcases hle with hle | hle
          · omega
          · omega
      · rw [if_neg h5] at hrr
        rw [if_neg (by simp only [List.length_append, List.length_cons,
          List.length_nil]; omega)] at h
        have hlen : (cons ++ [y]).length = cons.length + 1 := by
          simp [List.length_append]
        rw [← hlen] at hrr
        exact ih y (cons ++ [y]) r r1 hrr h
    · rw [if_neg hxy] at hrr
      have hbeq : (x + 1 == y) = false := by
        rw [beq_eq_false_iff_ne]
        exact hxy
      simp only [hbeq, Bool.false_eq_true, if_neg, if_false] at h
      rw [if_neg (by simp)] at h
      have hlen : ([y] : List Nat).length = 1 := rfl
      rw [← hlen] at hrr
      exact ih y [y] r r1 hrr h

lemma countRankingType_values (cards : List Card) :
    countRankingType cards ≠ HandRanking.ROYAL_FLUSH ∧
    countRankingType cards ≠ HandRanking.STRAIGHT_FLUSH ∧
    countRankingType cards ≠ HandRanking.STRAIGHT := by
  simp only [countRankingType]
  generalize (sortDesc (countsList cards)).getD 1 0 = m
  generalize (sortDesc (countsList cards)).getD 0 0 = n
  rcases n with _ | _ | _ | _ | _ | k
  · refine ⟨?_, ?_, ?_⟩
    · show (0 : Nat) ≠ HandRanking.ROYAL_FLUSH
      decide
    · show (0 : Nat) ≠ HandRanking.STRAIGHT_FLUSH
      decide
    · show (0 : Nat) ≠ HandRanking.STRAIGHT
      decide
  · refine ⟨?_, ?_, ?_⟩
    · show HandRanking.HIGH_CARD ≠ HandRanking.ROYAL_FLUSH
      decide
    · show HandRanking.HIGH_CARD ≠ HandRanking.STRAIGHT_FLUSH
      decide
    · show HandRanking.HIGH_CARD ≠ HandRanking.STRAIGHT
      decide
  · refine ⟨?_, ?_, ?_⟩
    · show (if 2 ≤ m then HandRanking.TWO_PAIR else HandRanking.PAIR) ≠
        HandRanking.ROYAL_FLUSH
      split_ifs <;> decide
    · show (if 2 ≤ m then HandRanking.TWO_PAIR else HandRanking.PAIR) ≠
        HandRanking.STRAIGHT_FLUSH
      split_ifs <;> decide
    · show (if 2 ≤ m then HandRanking.TWO_PAIR else HandRanking.PAIR) ≠
        HandRanking.STRAIGHT
      split_ifs <;> decide
  · refine ⟨?_, ?_, ?_⟩
    · show (if 2 ≤ m then HandRanking.FULL_HOUSE else HandRanking.TRIPLE) ≠
        HandRanking.ROYAL_FLUSH
      split_ifs <;> decide
    · show (if 2 ≤ m then HandRanking.FULL_HOUSE else HandRanking.TRIPLE) ≠
        HandRanking.STRAIGHT_FLUSH
      split_ifs <;> decide
    · show (if 2 ≤ m then HandRanking.FULL_HOUSE else HandRanking.TRIPLE) ≠
        HandRanking.STRAIGHT
      split_ifs <;> decide
  · refine ⟨?_, ?_, ?_⟩
    · show HandRanking.QUAD ≠ HandRanking.ROYAL_FLUSH
      decide
    · show HandRanking.QUAD ≠ HandRanking.STRAIGHT_FLUSH
      decide
    · show HandRanking.QUAD ≠ HandRanking.STRAIGHT
      decide
  · refine ⟨?_, ?_, ?_⟩
    · show (0 : Nat) ≠ HandRanking.ROYAL_FLUSH
      decide
    · show (0 : Nat) ≠ HandRanking.STRAIGHT_FLUSH
      decide
    · show (0 : Nat) ≠ HandRanking.STRAIGHT
      decide

lemma specAceHigh_iff (cards : List Card) :
    specHasStraightAceHigh cards = true ↔
      ∃ lo, 2 ≤ lo ∧ lo + 4 ≤ 14 ∧ lo ∈ distinctRanks cards ∧
        lo + 1 ∈ distinctRanks cards ∧ lo + 2 ∈ distinctRanks cards ∧
        lo + 3 ∈ distinctRanks cards ∧ lo + 4 ∈ distinctRanks cards := by
  rw [specHasStraightAceHigh]
  simp only [List.any_eq_true, List.mem_range, Bool.and_eq_true]
  constructor
  · rintro ⟨lo0, hlo0, ⟨⟨⟨h2, h3⟩, h4⟩, h5⟩, h6⟩
    refine ⟨lo0 + 2, by omega, by omega, ?_, ?_, ?_, ?_, ?_⟩
    · exact (contains_iff_mem _ _).mp h2
    · have he : lo0 + 2 + 1 = lo0 + 3 := by omega
      rw [he]
      exact (contains_iff_mem _ _).mp h3
    · have he : lo0 + 2 + 2 = lo0 + 4 := by omega
      rw [he]
      exact (contains_iff_mem _ _).mp h4
    · have he : lo0 + 2 + 3 = lo0 + 5 := by omega
      rw [he]
      exact (contains_iff_mem _ _).mp h5
    · have he : lo0 + 2 + 4 = lo0 + 6 := by omega
      rw [he]
      exact (contains_iff_mem _ _).mp h6
  · rintro ⟨lo, hlo2, hlo14, m0, m1, m2, m3, m4⟩
    refine ⟨lo - 2, by omega, ⟨⟨⟨?_, ?_⟩, ?_⟩, ?_⟩, ?_⟩
    · have he : lo - 2 + 2 = lo := by omega
      rw [he]
      exact (contains_iff_mem _ _).mpr m0
    · have he : lo - 2 + 3 = lo + 1 := by omega
      rw [he]
      exact (contains_iff_mem _ _).mpr m1
    · have he : lo - 2 + 4 = lo + 2 := by omega
      rw [he]
      exact (contains_iff_mem _ _).mpr m2
    · have he : lo - 2 + 5 = lo + 3 := by omega
      rw [he]
      exact (contains_iff_mem _ _).mpr m3
    · have he : lo - 2 + 6 = lo + 4 := by omega
      rw [he]
      exact (contains_iff_mem _ _).mpr m4

lemma five_consecutive_length (l : List Nat) (hnd : l.Nodup) (lo : Nat)
    (h0 : lo ∈ l) (h1 : lo + 1 ∈ l) (h2 : lo + 2 ∈ l) (h3 : lo + 3 ∈ l)
    (h4 : lo + 4 ∈ l) : 5 ≤ l.length := by
  have hsub : ({lo, lo + 1, lo + 2, lo + 3, lo + 4} : Finset Nat) ⊆ l.toFinset := by
    intro v hv
    simp only [Finset.mem_insert, Finset.mem_singleton] at hv
    rcases hv with rfl | rfl | rfl | rfl | rfl
    · exact List.mem_toFinset.mpr h0
    · exact List.mem_toFinset.mpr h1
    · exact List.mem_toFinset.mpr h2
    · exact List.mem_toFinset.mpr h3
    · exact List.mem_toFinset.mpr h4
  have hn1 : lo ∉ ({lo + 1, lo + 2, lo + 3, lo + 4} : Finset Nat) := by
    simp only [Finset.mem_insert, Finset.mem_singleton]
    omega
  have hn2 : lo + 1 ∉ ({lo + 2, lo + 3, lo + 4} : Finset Nat) := by
    simp only [Finset.mem_insert, Finset.mem_singleton]
    omega
  have hn3 : lo + 2 ∉ ({lo + 3, lo + 4} : Finset Nat) := by
    simp only [Finset.mem_insert, Finset.mem_singleton]
    omega
  have hn4 : lo + 3 ∉ ({lo + 4} : Finset Nat) := by
    simp only [Finset.mem_singleton]
    omega
  have hcard : ({lo, lo + 1, lo + 2, lo + 3, lo + 4} : Finset Nat).card = 5 := by
    rw [Finset.card_insert_of_not_mem hn1, Finset.card_insert_of_not_mem hn2,
      Finset.card_insert_of_not_mem hn3, Finset.card_insert_of_not_mem hn4,
      Finset.card_singleton]
  have hle := Finset.card_le_card hsub
  rw [hcard, List.toFinset_card_of_nodup hnd] at hle
  exact hle

/-! ## Claim theorems -/

/-- Claim C1, counterexample: a complete 2-player hand (stacks 1000 and 3,
small blind 25) ends with the pot at 53 and the two tied winners receiving
26 each from `showdown` inside the final `next_round` - the players' total
stacks grow by 52, not 53, so one chip is destroyed. -/
theorem c1_odd_chip_destroyed :
    shortDealTie.map (fun d => (d.pot, moneySum d.players)) = some (53, 950) ∧
    (shortDealTie.map (Deal.next_round scenCfg [7, 7])).map
      (fun d => (d.winners, d.pot, moneySum d.players)) = some ([0, 1], 53, 1002) ∧
    (1002 : Int) - 950 ≠ 53 := by
  refine ⟨by decide, by decide, by decide⟩

/-- Claim C1 (amended): every blind/bet/call/raise conserves pot plus stacks
exactly, but the showdown pays out `len(winners) * (pot // len(winners))`:
the stacks grow by the pot minus `pot mod len(winners)`, and the payout total
equals the contributions (the pot) iff the number of winners divides the pot -
the odd remainder chips are destroyed, not distributed. -/
theorem c1_conservation_and_payout :
    (∀ (cfg : GameCfg) (d : Deal) (a : Nat) (na : Int) (bl : Bool) (d2 : Deal) (rc : Nat),
      d.current_turn < d.players.length →
      Deal.action cfg d a na bl = some (d2, rc) → d2.winners = [] →
      d2.pot + moneySum d2.players = d.pot + moneySum d.players) ∧
    (∀ d : Deal, notFoldedIdx d ≠ [] →
      d.showdown.pot = d.pot ∧
      moneySum d.showdown.players =
        moneySum d.players + d.pot - d.pot.fmod ((showdownWinners d).length : Int) ∧
      (moneySum d.showdown.players = moneySum d.players + d.pot ↔
        ((showdownWinners d).length : Int) ∣ d.pot)) :=
  ⟨action_conserves, showdown_payout⟩

/-- Witness for C1: a concrete rejected raise leaves the state unchanged, and
the concrete `capDeal` showdown payout facts. -/
theorem c1_conservation_and_payout_witness :
    (capDeal.pot + moneySum capDeal.players = capDeal.pot + moneySum capDeal.players) ∧
    (capDeal.showdown.pot = capDeal.pot ∧
      moneySum capDeal.showdown.players =
        moneySum capDeal.players + capDeal.pot -
          capDeal.pot.fmod ((showdownWinners capDeal).length : Int) ∧
      (moneySum capDeal.showdown.players = moneySum capDeal.players + capDeal.pot ↔
        ((showdownWinners capDeal).length : Int) ∣ capDeal.pot)) :=
  ⟨c1_conservation_and_payout.1 scenCfg capDeal 2 40 false capDeal 1 (by decide)
      (by decide) rfl,
    c1_conservation_and_payout.2 capDeal (by decide)⟩

/-- Claim C2, counterexample: in the completed short-stack hand (seat 1 all-in
for 3, seat 0 having contributed 50, seat 1 holding the better hand), the
code's showdown pays the whole pot [0, 53], while the spec's main/side-pot
partition pays [47, 6]. -/
theorem c2_no_side_pots :
    shortDealWin1.map payoutVec = some [0, 53] ∧
    shortDealWin1.map (fun d =>
      specSidePotPayouts
        (List.zipWith (fun m0 p => m0 - p.money) [1000, 3] d.players)
        (d.players.map PlayerHand.folded)
        (d.players.map PlayerHand.score)) = some [47, 6] ∧
    ([0, 53] : List Int) ≠ [47, 6] := by
  refine ⟨by decide, by decide, by decide⟩

/-- Claim C2 (amended): `showdown` builds no side pots.  The winners are
exactly the non-folded players with the globally maximal score - eligibility
ignores contribution tiers entirely - and each winner receives the same floor
share of the single whole pot. -/
theorem c2_single_pot_showdown :
    ∀ d : Deal, notFoldedIdx d ≠ [] →
      (∀ j, j ∈ d.showdown.winners ↔
        (j < d.players.length ∧ (d.players.getD j default).folded = false ∧
          (d.players.getD j default).score = maxScoreOf d)) ∧
      (∀ j, j < d.players.length → (d.players.getD j default).folded = false →
        (d.players.getD j default).score ≤ maxScoreOf d) ∧
      (∀ j, j < d.players.length →
        (d.showdown.players.getD j default).money =
          (d.players.getD j default).money +
            (if j ∈ showdownWinners d then
              d.pot.fdiv ((showdownWinners d).length : Int) else 0)) := by
  intro d h
  refine ⟨?_, ?_, fun j hj => showdown_money_at d h j hj⟩
  · intro j
    rw [showdown_eq_of_ne d h]
    exact mem_showdownWinners d j
  · intro j hj hf
    rw [maxScoreOf]
    apply le_listMaxInt
    exact List.mem_map_of_mem _ ((mem_notFoldedIdx d j).mpr ⟨hj, hf⟩)

/-- Witness for C2: the single-pot showdown facts at the concrete `capDeal`. -/
theorem c2_single_pot_showdown_witness :
    (0 ∈ capDeal.showdown.winners ↔
      (0 < capDeal.players.length ∧
        (capDeal.players.getD 0 default).folded = false ∧
        (capDeal.players.getD 0 default).score = maxScoreOf capDeal)) ∧
    (capDeal.showdown.players.getD 0 default).money =
      (capDeal.players.getD 0 default).money +
        (if 0 ∈ showdownWinners capDeal then
          capDeal.pot.fdiv ((showdownWinners capDeal).length : Int) else 0) := by
  have h := c2_single_pot_showdown capDeal (by decide)
  exact ⟨h.1 0, h.2.2 0 (by decide)⟩

/-- Claim C3, counterexample: after the blinds and the small blind's call,
every non-folded player has matched the bet-to-call of 50 and nobody is
all-in, yet the round is not finished (the big blind still has the option,
because blind posts do not set the `called` flag). -/
theorem c3_matched_but_not_finished :
    evenDeal1.map (fun d => (d.round_finished, d.winners,
      d.players.all (fun p => p.folded || (p.bet_amount == d.bet_amount) || p.all_in))) =
      some (false, [], true) := by
  decide

/-- Claim C3 (amended): after every accepted action, the round-finished flag
equals "every non-folded player has the `called` flag or is all-in"; the
`called` flag (set only by voluntary actions, never by blind posts) always
implies the bet is matched, so a round is never finished early; and when the
round is not finished and the deal has not ended, the turn lands on a
non-folded, non-all-in player. -/
theorem c3_round_finished_flag :
    ∀ (cfg : GameCfg) (d : Deal) (a : Nat) (na : Int) (bl : Bool) (d2 : Deal),
      d.current_turn < d.players.length → 2 ≤ countNotFolded d.players →
      calledMatched d →
      Deal.action cfg d a na bl = some (d2, ActionResult.SUCCESS) →
      d2.round_finished = allCalledOrAllIn d2.players ∧
      calledMatched d2 ∧
      (d2.round_finished = false → d2.winners = [] →
        d2.current_turn < d2.players.length ∧
        (d2.players.getD d2.current_turn default).folded = false ∧
        (d2.players.getD d2.current_turn default).all_in = false) :=
  fun cfg d a na bl d2 hturn hcount hinv h =>
    action_round_invariant cfg d a na bl d2 hturn hcount hinv h

/-- Witness for C3: seat 0 of `capDeal` calls (an all-in call for its 30
chips), and the guaranteed conclusions hold at the concrete result. -/
theorem c3_round_finished_flag_witness :
    capDeal.doCall.afterAction.round_finished =
      allCalledOrAllIn capDeal.doCall.afterAction.players ∧
    calledMatched capDeal.doCall.afterAction ∧
    (capDeal.doCall.afterAction.round_finished = false →
      capDeal.doCall.afterAction.winners = [] →
      capDeal.doCall.afterAction.current_turn <
        capDeal.doCall.afterAction.players.length ∧
      (capDeal.doCall.afterAction.players.getD
        capDeal.doCall.afterAction.current_turn default).folded = false ∧
      (capDeal.doCall.afterAction.players.getD
        capDeal.doCall.afterAction.current_turn default).all_in = false) :=
  c3_round_finished_flag scenCfg capDeal 1 0 false capDeal.doCall.afterAction
    (by decide) (by decide) (by decide) (by decide)

/-- Claim C4, counterexample: A-2-3-4-5 in mixed suits contains 5 consecutive
distinct ranks with the Ace as 1 (the spec-side predicate holds), yet
`calculate_ranking` reports high card (10), strictly worse than straight (6):
appending the rank 1 after 14 means the scan never sees the ace-low run. -/
theorem c4_ace_low_straight_missed :
    specHasStraight aceLowHand = true ∧
    calculate_ranking aceLowHand = some HandRanking.HIGH_CARD ∧
    HandRanking.STRAIGHT < HandRanking.HIGH_CARD := by
  refine ⟨by decide, by decide, by decide⟩

/-- Claim C4 (amended): for EVERY valid 5-7 card input, straights are
detected with the Ace high only.  If five consecutive distinct ranks with
low card 2..10 are present (`specHasStraightAceHigh`), the reported category
is straight or better; if not - even when the spec's ace-low straight
A-2-3-4-5 is present (`specHasStraight`) - the reported category is exactly
the count-based classification (capped at flush when a flush is present) and
is never straight, straight flush or royal flush.  In all cases the final
category is at least as good as the count-based classification unless beaten
by the straight/royal-flush codes, and at least as good as flush when a
flush is present. -/
theorem c4_ranking_ace_high_only :
    ∀ (cards : List Card) (r : Nat),
      5 ≤ cards.length → cards.length ≤ 7 →
      (∀ c ∈ cards, 2 ≤ c.rank ∧ c.rank ≤ 14) →
      calculate_ranking cards = some r →
      (specHasStraightAceHigh cards = true → r ≤ HandRanking.STRAIGHT) ∧
      (specHasStraightAceHigh cards = false →
        r = (if hasFlush cards = true then
            min (countRankingType cards) HandRanking.FLUSH
          else countRankingType cards) ∧
        r ≠ HandRanking.STRAIGHT ∧ r ≠ HandRanking.STRAIGHT_FLUSH ∧
        r ≠ HandRanking.ROYAL_FLUSH) ∧
      ((hasFlush cards = true → r ≤ HandRanking.FLUSH) ∧
        (r ≤ countRankingType cards ∨ r ≤ HandRanking.STRAIGHT_FLUSH)) := by
  intro cards r hlen5 hlen7 hvalid h
  simp only [calculate_ranking] at h
  by_cases hd : (distinctRanks cards).length < 2
  · rw [if_pos hd] at h
    exact Option.noConfusion h
  rw [if_neg hd] at h
  rcases Option.map_eq_some'.mp h with ⟨r1, hr1, hfr⟩
  have hfr' : (if hasFlush cards = true then min r1 HandRanking.FLUSH else r1) = r :=
    hfr
  have hbounds := distinctRanks_bounds cards hvalid
  have hnd : (distinctRanks cards).Nodup := by
    rw [distinctRanks]
    exact List.nodup_dedup _
  have hsorted := sortAsc_sorted_lt (distinctRanks cards) hnd
  have hlenAsc := length_sortAsc (distinctRanks cards)
  rcases hra : sortAsc (distinctRanks cards) with _ | ⟨xa, resta⟩
  · rw [hra] at hlenAsc
    simp only [List.length_nil] at hlenAsc
    omega
  rw [hra] at hsorted hlenAsc
  simp only [List.length_cons] at hlenAsc
  have hxam : xa ∈ distinctRanks cards := by
    rw [← mem_sortAsc, hra]
    exact List.mem_cons_self ..
  have hxa2 : 2 ≤ xa := (hbounds xa hxam).1
  have hresta2 : ∀ e ∈ resta, 2 ≤ e := by
    intro e he
    refine (hbounds e ?_).1
    rw [← mem_sortAsc, hra]
    exact List.mem_cons_of_mem _ he
  have hreach_of_spec : specHasStraightAceHigh cards = true →
      runReach 1 xa resta = true := by
    intro hsp
    obtain ⟨lo, _, _, m0, m1, m2, m3, m4⟩ := (specAceHigh_iff cards).mp hsp
    have t0 : lo ∈ xa :: resta := by rw [← hra, mem_sortAsc]; exact m0
    have t1 : lo + 1 ∈ xa :: resta := by rw [← hra, mem_sortAsc]; exact m1
    have t2 : lo + 2 ∈ xa :: resta := by rw [← hra, mem_sortAsc]; exact m2
    have t3 : lo + 3 ∈ xa :: resta := by rw [← hra, mem_sortAsc]; exact m3
    have t4 : lo + 4 ∈ xa :: resta := by rw [← hra, mem_sortAsc]; exact m4
    exact sorted_run_runReach lo resta xa hsorted t0 t1 t2 t3 t4
  have hreach_spec : runReach 1 xa resta = true →
      specHasStraightAceHigh cards = true := by
    intro hrt
    obtain ⟨lo, l0, l1, l2, l3, l4⟩ := runReach_exists_run (xa :: resta) resta xa 1
      (fun y hy => List.mem_cons_of_mem _ hy)
      (fun i hi => ⟨xa, List.mem_cons_self .., by omega⟩) hrt
    have d0 : lo ∈ distinctRanks cards := by rw [← mem_sortAsc, hra]; exact l0
    have d1 : lo + 1 ∈ distinctRanks cards := by rw [← mem_sortAsc, hra]; exact l1
    have d2 : lo + 2 ∈ distinctRanks cards := by rw [← mem_sortAsc, hra]; exact l2
    have d3 : lo + 3 ∈ distinctRanks cards := by rw [← mem_sortAsc, hra]; exact l3
    have d4 : lo + 4 ∈ distinctRanks cards := by rw [← mem_sortAsc, hra]; exact l4
    refine (specAceHigh_iff cards).mpr ⟨lo, (hbounds lo d0).1, (hbounds _ d4).2,
      d0, d1, d2, d3, d4⟩
  have hspec_len : specHasStraightAceHigh cards = true →
      5 ≤ (distinctRanks cards).length := by
    intro hsp
    obtain ⟨lo, _, _, m0, m1, m2, m3, m4⟩ := (specAceHigh_iff cards).mp hsp
    exact five_consecutive_length (distinctRanks cards) hnd lo m0 m1 m2 m3 m4
  have key : (specHasStraightAceHigh cards = true → r1 ≤ HandRanking.STRAIGHT) ∧
      (specHasStraightAceHigh cards = false → r1 = countRankingType cards) ∧
      (r1 ≤ countRankingType cards ∨ r1 ≤ 2) := by
    by_cases hace : ((cards.map Card.rank).contains 14) = true
    · rw [if_pos hace, hra, List.cons_append] at hr1
      by_cases hl5 : 5 ≤ (xa :: (resta ++ [1])).length
      · rw [if_pos hl5] at hr1
        have hscan : straightScan cards (resta ++ [1]) xa [xa]
            (countRankingType cards) = some r1 := hr1
        refine ⟨?_, ?_, straightScan_le cards _ xa [xa] _ r1 hscan⟩
        · intro hsp
          have hrt := runReach_append_of_true resta 1 xa [1] (hreach_of_spec hsp)
          exact straightScan_run_le cards (resta ++ [1]) xa [xa] _ r1 hrt hscan
        · intro hno
          have hrf : runReach 1 xa resta = false := by
            cases hb : runReach 1 xa resta with
            | false => rfl
            | true =>
              rw [hreach_spec hb] at hno
              exact absurd hno (by simp)
          have hrf' : runReach 1 xa (resta ++ [1]) = false := by
            rw [runReach_append_one resta 1 xa hxa2 hresta2]
            exact hrf
          have hnoscan := straightScan_no_run cards (resta ++ [1]) xa [xa]
            (countRankingType cards) hrf'
          rw [hnoscan] at hscan
          injection hscan with he
          exact he.symm
      · rw [if_neg hl5] at hr1
        injection hr1 with he
        refine ⟨?_, fun _ => he.symm, by left; omega⟩
        intro hsp
        have := hspec_len hsp
        simp only [List.length_cons, List.length_append, List.length_nil] at hl5
        omega
    · rw [if_neg hace, hra] at hr1
      by_cases hl5 : 5 ≤ (xa :: resta).length
      · rw [if_pos hl5] at hr1
        have hscan : straightScan cards resta xa [xa]
            (countRankingType cards) = some r1 := hr1
        refine ⟨?_, ?_, straightScan_le cards _ xa [xa] _ r1 hscan⟩
        · intro hsp
          exact straightScan_run_le cards resta xa [xa] _ r1
            (hreach_of_spec hsp) hscan
        · intro hno
          have hrf : runReach 1 xa resta = false := by
            cases hb : runReach 1 xa resta with
            | false => rfl
            | true =>
              rw [hreach_spec hb] at hno
              exact absurd hno (by simp)
          have hnoscan := straightScan_no_run cards resta xa [xa]
            (countRankingType cards) hrf
          rw [hnoscan] at hscan
          injection hscan with he
          exact he.symm
      · rw [if_neg hl5] at hr1
        injection hr1 with he
        refine ⟨?_, fun _ => he.symm, by left; omega⟩
        intro hsp
        have := hspec_len hsp
        simp only [List.length_cons] at hl5
        omega
  obtain ⟨hA, hB, hC⟩ := key
  have hrle : r ≤ r1 := by
    rw [← hfr']
    by_cases hf : hasFlush cards = true
    · rw [if_pos hf]
      exact min_le_left ..
    · rw [if_neg hf]
  have hv := countRankingType_values cards
  refine ⟨?_, ?_, ?_, ?_⟩
  · intro hsp
    exact le_trans hrle (hA hsp)
  · intro hno
    have hr1r0 := hB hno
    refine ⟨by rw [← hfr', hr1r0], ?_, ?_, ?_⟩
    · rw [← hfr', hr1r0]
      by_cases hf : hasFlush cards = true
      · rw [if_pos hf]
        rcases min_choice (countRankingType cards) HandRanking.FLUSH with hm | hm
        · rw [hm]
          exact hv.2.2
        · rw [hm]
          decide
      · rw [if_neg hf]
        exact hv.2.2
    · rw [← hfr', hr1r0]
      by_cases hf : hasFlush cards = true
      · rw [if_pos hf]
        rcases min_choice (countRankingType cards) HandRanking.FLUSH with hm | hm
        · rw [hm]
          exact hv.2.1
        · rw [hm]
          decide
      · rw [if_neg hf]
        exact hv.2.1
    · rw [← hfr', hr1r0]
      by_cases hf : hasFlush cards = true
      · rw [if_pos hf]
        rcases min_choice (countRankingType cards) HandRanking.FLUSH with hm | hm
        · rw [hm]
          exact hv.1
        · rw [hm]
          decide
      · rw [if_neg hf]
        exact hv.1
  · intro hf
    rw [← hfr', if_pos hf]
    exact min_le_right ..
  · rcases hC with hC | hC
    · left
      exact le_trans hrle hC
    · right
      have h2sf : (2 : Nat) ≤ HandRanking.STRAIGHT_FLUSH := by decide
      omega

/-- Witness for C4: the guarantee instantiated at the concrete ace-high
straight hand 10-J-Q-K-A, whose evaluation is straight (6). -/
theorem c4_ranking_ace_high_only_witness :
    (specHasStraightAceHigh aceHighHand = true →
      HandRanking.STRAIGHT ≤ HandRanking.STRAIGHT) ∧
    (specHasStraightAceHigh aceHighHand = false →
      HandRanking.STRAIGHT = (if hasFlush aceHighHand = true then
          min (countRankingType aceHighHand) HandRanking.FLUSH
        else countRankingType aceHighHand) ∧
      HandRanking.STRAIGHT ≠ HandRanking.STRAIGHT ∧
      HandRanking.STRAIGHT ≠ HandRanking.STRAIGHT_FLUSH ∧
      HandRanking.STRAIGHT ≠ HandRanking.ROYAL_FLUSH) ∧
    ((hasFlush aceHighHand = true → HandRanking.STRAIGHT ≤ HandRanking.FLUSH) ∧
      (HandRanking.STRAIGHT ≤ countRankingType aceHighHand ∨
        HandRanking.STRAIGHT ≤ HandRanking.STRAIGHT_FLUSH)) :=
  c4_ranking_ace_high_only aceHighHand HandRanking.STRAIGHT (by decide) (by decide)
    (by decide) (by decide)

/-- Claim C5 (modelled from the spec, `rules/basic.py` being absent from this
snapshot): the overall score totally orders hands with the category dominant:
hands of different categories never tie, and hands of the same category tie
exactly when their five tie-break card ranks agree; `showdown` compares
exactly this score, awarding the pot to the non-folded maximal-score players. -/
theorem c5_overall_score_total_order :
    (∀ h1 h2 : ScoredRanking, validRanking h1 → validRanking h2 →
      (h1.ranking_type ≠ h2.ranking_type → overall_score h1 ≠ overall_score h2) ∧
      (h1.ranking_type = h2.ranking_type →
        (overall_score h1 = overall_score h2 ↔ h1.tiebreak = h2.tiebreak))) ∧
    (∀ d : Deal, notFoldedIdx d ≠ [] → ∀ j,
      j ∈ d.showdown.winners ↔
        (j < d.players.length ∧ (d.players.getD j default).folded = false ∧
          (d.players.getD j default).score = maxScoreOf d)) := by
  constructor
  · intro h1 h2 v1 v2
    obtain ⟨hr1a, hr1b, hl1, hb1⟩ := v1
    obtain ⟨hr2a, hr2b, hl2, hb2⟩ := v2
    have hv1 : scoreDigits h1.tiebreak < 759375 := by
      have := scoreDigits_lt h1.tiebreak hb1
      rw [hl1] at this
      norm_num at this
      exact this
    have hv2 : scoreDigits h2.tiebreak < 759375 := by
      have := scoreDigits_lt h2.tiebreak hb2
      rw [hl2] at this
      norm_num at this
      exact this
    have hpow : (15 : Nat) ^ 5 = 759375 := by norm_num
    constructor
    · intro hne heq
      rw [overall_score, overall_score, hpow] at heq
      omega
    · intro hrt
      constructor
      · intro heq
        rw [overall_score, overall_score, hpow, hrt] at heq
        have hdig : scoreDigits h1.tiebreak = scoreDigits h2.tiebreak := by omega
        rw [scoreDigits, scoreDigits] at hdig
        exact (foldl_scoreStep_inj h1.tiebreak h2.tiebreak 0 0
          (hl1.trans hl2.symm) hb1 hb2 hdig).2
      · intro ht
        rw [overall_score, overall_score, hrt, ht]
  · intro d h j
    rw [showdown_eq_of_ne d h]
    exact mem_showdownWinners d j

/-- Witness for C5: two concrete rankings (straight vs high card on the same
tie-break cards) and the concrete `capDeal` showdown winner. -/
theorem c5_overall_score_total_order_witness :
    ((ScoredRanking.mk 6 [9, 8, 7, 6, 5]).ranking_type ≠
        (ScoredRanking.mk 10 [9, 8, 7, 6, 5]).ranking_type →
      overall_score (ScoredRanking.mk 6 [9, 8, 7, 6, 5]) ≠
        overall_score (ScoredRanking.mk 10 [9, 8, 7, 6, 5])) ∧
    (0 ∈ capDeal.showdown.winners ↔
      (0 < capDeal.players.length ∧
        (capDeal.players.getD 0 default).folded = false ∧
        (capDeal.players.getD 0 default).score = maxScoreOf capDeal)) :=
  ⟨(c5_overall_score_total_order.1 (ScoredRanking.mk 6 [9, 8, 7, 6, 5])
      (ScoredRanking.mk 10 [9, 8, 7, 6, 5]) (by decide) (by decide)).1,
    c5_overall_score_total_order.2 capDeal (by decide) 0⟩

/-- Claim C6, counterexample: a raise to 40 exceeds seat 0's stack of 30, but
is below twice the minimum bet, so the action is rejected with
`LESS_THAN_MIN_BET` and the state is unchanged - it does not "succeed capped". -/
theorem c6_small_over_stack_raise_rejected :
    Deal.action scenCfg capDeal 2 40 false =
      some (capDeal, ActionResult.LESS_THAN_MIN_BET) ∧
    (capDeal.players.getD capDeal.current_turn default).money +
      (capDeal.players.getD capDeal.current_turn default).bet_amount < 40 ∧
    ActionResult.LESS_THAN_MIN_BET ≠ ActionResult.SUCCESS := by
  refine ⟨by decide, by decide, by decide⟩

/-- Claim C6 (amended): a bet/raise whose amount exceeds the acting player's
stack plus current-round commitment succeeds - PROVIDED it passes the
minimum-bet and minimum-raise checks - with the amount capped to stack plus
commitment: the player pays their whole stack, is flagged all-in, and the new
bet-to-call is the capped amount. -/
theorem c6_raise_capped_all_in :
    ∀ (cfg : GameCfg) (d : Deal) (na : Int) (bl : Bool),
      d.current_turn < d.players.length →
      d.round_finished = false → d.winners = [] →
      (d.players.getD d.current_turn default).money +
        (d.players.getD d.current_turn default).bet_amount < na →
      (bl = false → 2 * cfg.min_bet ≤ na) →
      d.bet_amount < na →
      ∃ d2, Deal.action cfg d 2 na bl = some (d2, ActionResult.SUCCESS) ∧
        d2.bet_amount = (d.players.getD d.current_turn default).money +
          (d.players.getD d.current_turn default).bet_amount ∧
        (d2.players.getD d.current_turn default).all_in = true ∧
        (d2.players.getD d.current_turn default).money = 0 ∧
        d2.pot = d.pot + (d.players.getD d.current_turn default).money := by
  intro cfg d na bl hturn hfin hwin hcap hmin hraise
  have hact : Deal.action cfg d 2 na bl =
      some ((d.doRaise na bl).afterAction, ActionResult.SUCCESS) := by
    rw [Deal.action]
    rw [if_neg (by omega), if_neg (by rw [hfin]; exact Bool.false_ne_true),
      if_neg (not_ne_iff.mpr hwin), if_neg (by omega), if_neg (by omega),
      if_neg ?hmin, if_neg (by omega)]
    case hmin =>
      rintro ⟨hbl, hlt⟩
      have hble : bl = false := by
        revert hbl
        cases bl <;> simp
      have := hmin hble
      omega
  refine ⟨(d.doRaise na bl).afterAction, hact, ?_, ?_, ?_, ?_⟩
  · rw [afterAction_bet_amount]
    show (if (d.players.getD d.current_turn default).money +
        (d.players.getD d.current_turn default).bet_amount < na then
      (d.players.getD d.current_turn default).money +
        (d.players.getD d.current_turn default).bet_amount
    else na) = _
    rw [if_pos hcap]
  · rw [afterAction_players]
    rw [Deal.doRaise]
    simp only
    rw [if_pos hcap]
    have hlen : d.current_turn < (d.players.map resetCalled).length := by
      simpa using hturn
    rw [getD_set_self _ _ _ hlen, getD_map_resetCalled]
    exact (bet_all_in_cap (resetCalled (d.players.getD d.current_turn default))
      d.pot bl).1
  · rw [afterAction_players]
    rw [Deal.doRaise]
    simp only
    rw [if_pos hcap]
    have hlen : d.current_turn < (d.players.map resetCalled).length := by
      simpa using hturn
    rw [getD_set_self _ _ _ hlen, getD_map_resetCalled]
    exact (bet_all_in_cap (resetCalled (d.players.getD d.current_turn default))
      d.pot bl).2.1
  · rw [afterAction_pot]
    rw [Deal.doRaise]
    simp only
    rw [if_pos hcap, getD_map_resetCalled]
    exact (bet_all_in_cap (resetCalled (d.players.getD d.current_turn default))
      d.pot bl).2.2.1

/-- Witness for C6: seat 0 of `capDeal` (stack 30, bet-to-call 50) raises to
200: the raise is accepted, capped at 30, and flags the all-in. -/
theorem c6_raise_capped_all_in_witness :
    ∃ d2, Deal.action scenCfg capDeal 2 200 false =
        some (d2, ActionResult.SUCCESS) ∧
      d2.bet_amount = (capDeal.players.getD capDeal.current_turn default).money +
        (capDeal.players.getD capDeal.current_turn default).bet_amount ∧
      (d2.players.getD capDeal.current_turn default).all_in = true ∧
      (d2.players.getD capDeal.current_turn default).money = 0 ∧
      d2.pot = capDeal.pot + (capDeal.players.getD capDeal.current_turn default).money :=
  c6_raise_capped_all_in scenCfg capDeal 200 false (by decide) (by decide) rfl
    (by decide) (fun _ => by decide) (by decide)

/-- Claim C10 (confirmed): `get_next_turn` terminates on every deal state.
When at most one player is non-folded or every non-folded player is all-in it
returns the given turn unchanged without recursing; otherwise a non-folded,
non-all-in player exists and the wrapping scan reaches one within the fuel
bound, returning a valid index of a player who can act. -/
theorem c10_get_next_turn_total :
    ∀ (d : Deal) (n t : Nat), t < d.players.length →
      ((countNotFolded d.players ≤ 1 ∨ allNotFoldedAllIn d.players = true) →
        d.get_next_turn n (some t) = some t) ∧
      (¬(countNotFolded d.players ≤ 1 ∨ allNotFoldedAllIn d.players = true) →
        ∃ j, d.get_next_turn n (some t) = some j ∧ j < d.players.length ∧
          (d.players.getD j default).folded = false ∧
          (d.players.getD j default).all_in = false) := by
  intro d n t hlt
  constructor
  · intro hg
    exact get_next_turn_guard d n (some t) hg
  · intro hg
    obtain ⟨j, hj, hlen, hact⟩ := get_next_turn_sound d n (some t) hlt hg
    obtain ⟨hf, ha⟩ := canAct_true hact
    exact ⟨j, hj, hlen, hf, ha⟩

/-- Witness for C10: the guard case on `guardDeal` (one player left) and the
scan case on `capDeal` (two live players). -/
theorem c10_get_next_turn_total_witness :
    guardDeal.get_next_turn 1 (some 0) = some 0 ∧
    ∃ j, capDeal.get_next_turn 1 (some 0) = some j ∧ j < capDeal.players.length ∧
      (capDeal.players.getD j default).folded = false ∧
      (capDeal.players.getD j default).all_in = false :=
  ⟨(c10_get_next_turn_total guardDeal 1 0 (by decide)).1 (by decide),
    (c10_get_next_turn_total capDeal 1 0 (by decide)).2 (by decide)⟩

/-- Claim C7 (code bug): the format guard is the conjunction
`len(room_code) != 4 and not room_code.isupper()`, so the 4-character
lowercase code "abcd" - which is not 4 uppercase characters - passes the
format check and is reported as room-not-found instead of invalid-format
(membership stays unchanged on the error). -/
theorem c7_format_check_conjunction :
    ClientHandler.join_room lowercaseCode [] false false =
      some JoinRoomError.roomNotFound ∧
    ¬(lowercaseCode.length = 4 ∧ pyIsUpper lowercaseCode = true) ∧
    JoinRoomError.roomNotFound ≠ JoinRoomError.invalidFormat ∧
    ClientHandler.join_room_member lowercaseCode [] false false = false := by
  refine ⟨by decide, by decide, by decide, by decide⟩

/-- Claim C8 (code bug): the response-wait loop of `send_request` tests the
constant polling interval `check_delay` (0.01 s) against the 5-second bound
instead of the accumulated `wait_time`, so after any number of iterations
without a response - even far past 5 seconds of accumulated waiting - no
`TimeoutError` is raised and the request queue is never popped. -/
theorem c8_send_request_never_times_out :
    ∀ (q : List Nat) (n : Nat),
      (waitIter (sendRequestWaitInit q) n).timed_out = false ∧
      (waitIter (sendRequestWaitInit q) n).request_queue = q ∧
      (waitIter (sendRequestWaitInit q) n).check_delay = 1 ∧
      (waitIter (sendRequestWaitInit q) n).wait_time = n := by
  have key : ∀ (n : Nat) (s : WaitState), s.check_delay = 1 →
      (waitIter s n).timed_out = s.timed_out ∧
      (waitIter s n).request_queue = s.request_queue ∧
      (waitIter s n).check_delay = 1 ∧
      (waitIter s n).wait_time = s.wait_time + n := by
    intro n
    induction n with
    | zero => intro s h; exact ⟨rfl, rfl, h, (Nat.add_zero _).symm⟩
    | succ m ih =>
      intro s h
      have hstep : waitStep s = { s with wait_time := s.wait_time + s.check_delay } := by
        rw [waitStep]
        rw [if_neg (show ¬500 ≤ s.check_delay by omega)]
      have hrec := ih (waitStep s) (by rw [hstep]; exact h)
      have hit : waitIter s (m + 1) = waitIter (waitStep s) m := rfl
      rw [hit]
      refine ⟨?_, ?_, hrec.2.2.1, ?_⟩
      · rw [hrec.1, hstep]
      · rw [hrec.2.1, hstep]
      · rw [hrec.2.2.2, hstep]
        simp only
        omega
  intro q n
  have h := key n (sendRequestWaitInit q) rfl
  refine ⟨h.1, h.2.1, h.2.2.1, ?_⟩
  rw [h.2.2.2]
  exact Nat.zero_add n

/-- Claim C9 (confirmed): `ServerGameRoom.join` raises the name-taken error
exactly when the requested name matches a seated player not flagged
`leave_next_hand`; queued joiners and spectators are not checked, so a second
client with a queued joiner's name is still admitted to the queue, and on the
error the room state is unchanged. -/
theorem c9_join_name_check :
    ∀ (room : Room) (name : Nat),
      (ServerGameRoom.join room name = JoinResult.nameTaken ↔
        ∃ p ∈ room.players, p.leave_next_hand = false ∧ p.name = name) ∧
      (ServerGameRoom.join room name = JoinResult.nameTaken →
        ServerGameRoom.joinState room name = room) ∧
      ((¬∃ p ∈ room.players, p.leave_next_hand = false ∧ p.name = name) →
        room.game_in_progress = true →
        ∃ np, ServerGameRoom.join room name =
            JoinResult.ok { room with joining_queue := room.joining_queue ++ [np] } np ∧
          np.name = name ∧ np.leave_next_hand = false) := by
  intro room name
  have hiff : room.players.any (fun x => !x.leave_next_hand && x.name == name) = true ↔
      ∃ p ∈ room.players, p.leave_next_hand = false ∧ p.name = name := by
    rw [List.any_eq_true]
    constructor
    · rintro ⟨p, hp, hcond⟩
      rw [Bool.and_eq_true, Bool.not_eq_true', beq_iff_eq] at hcond
      exact ⟨p, hp, hcond⟩
    · rintro ⟨p, hp, h1, h2⟩
      refine ⟨p, hp, ?_⟩
      rw [Bool.and_eq_true, Bool.not_eq_true', beq_iff_eq]
      exact ⟨h1, h2⟩
  by_cases htk : room.players.any (fun x => !x.leave_next_hand && x.name == name) = true
  · have hjoin : ServerGameRoom.join room name = JoinResult.nameTaken := by
      rw [ServerGameRoom.join, if_pos htk]
    refine ⟨?_, ?_, ?_⟩
    · rw [hjoin]
      exact ⟨fun _ => hiff.mp htk, fun _ => Iff.rfl.mpr rfl⟩
    · intro _
      rw [ServerGameRoom.joinState, hjoin]
    · intro hn _
      exact absurd (hiff.mp htk) hn
  · have hne : ¬∃ p ∈ room.players, p.leave_next_hand = false ∧ p.name = name :=
      fun hc => htk (hiff.mpr hc)
    refine ⟨?_, ?_, ?_⟩
    · constructor
      · intro hj
        rw [ServerGameRoom.join, if_neg htk] at hj
        split_ifs at hj
      · intro hc
        exact absurd hc hne
    · intro hj
      rw [ServerGameRoom.join, if_neg htk] at hj
      split_ifs at hj
    · intro _ hgp
      refine ⟨⟨name, room.starting_chips, false, 0⟩, ?_, rfl, rfl⟩
      rw [ServerGameRoom.join, if_neg htk]
      simp only
      rw [if_pos hgp]

/-- Witness for C9: in `scenRoom` (seated player 7 flagged to leave, queued
joiner 5, game in progress) the name-taken test for name 7 is decided by the
iff, and a second client named 5 is admitted to the queue. -/
theorem c9_join_name_check_witness :
    (ServerGameRoom.join scenRoom 7 = JoinResult.nameTaken ↔
      ∃ p ∈ scenRoom.players, p.leave_next_hand = false ∧ p.name = 7) ∧
    ∃ np, ServerGameRoom.join scenRoom 5 =
        JoinResult.ok { scenRoom with joining_queue := scenRoom.joining_queue ++ [np] } np ∧
      np.name = 5 ∧ np.leave_next_hand = false :=
  ⟨(c9_join_name_check scenRoom 7).1,
    (c9_join_name_check scenRoom 5).2.2 (by decide) rfl⟩

end Allin
